import Mathlib

/-
Verification of the `cpp_cache` key-value cache engine
(`src/include/cpp_cache.hpp`) against its natural-language specification.

Modelling notes.
* `std::list` nodes are modelled as entries carrying a node identifier `id`;
  a `std::list::iterator` is modelled as that identifier, which stays valid
  across `splice` (as in C++) and becomes dangling once the node is erased.
* The `std::unordered_map<K, iterator>` index is modelled as an association
  list `List (K × Nat)`; `operator[]` assignment replaces the binding for the
  key, other bindings are untouched (iteration order carries no contract).
* `size_t` quantities (`current_size`, `max_size`, the size calculator) are
  modelled on `Nat`; the subtractions performed by the code only ever
  subtract the size of an entry that is accounted for in `current_size`, so
  truncated subtraction agrees with the machine arithmetic on the states the
  theorems below speak about.
* Undefined behaviour (dereferencing or erasing a dangling iterator, taking
  `back()` of an empty list) is modelled by returning `none`; operations
  therefore return `Option` results.
* The mutex only serialises operations; the sequential semantics is the
  state-passing semantics below.  `merge(cache const&)` does not instantiate
  (it names the strategy's private `eviction_list` member and a malformed
  cache type), so the key-level `merge` is the merge operation modelled here.
-/

namespace CppCache

/-- A node of the eviction list: `std::tuple<key_type, V, dirty_type>` together
with the node identity `id` that models `std::list` iterator stability. -/
structure Entry (K V : Type) where
  id : Nat
  key : K
  value : V
  dirty : Bool
deriving DecidableEq

/-- The two concrete eviction strategies, `lru_eviction` and `mru_eviction`. -/
inductive Strategy
  | lru
  | mru
deriving DecidableEq

/-- The state of a `cpp_cache::cache`: the strategy's `eviction_list`, the
coordinator's `cache_map` (key → node handle), the strategy's `current_size`
and `max_size`, the `_strong` flag, and the next fresh node identifier. -/
structure CacheState (K V : Type) where
  eviction_list : List (Entry K V)
  cache_map : List (K × Nat)
  current_size : Nat
  max_size : Nat
  strong : Bool
  next_id : Nat
deriving DecidableEq

variable {K V : Type} [DecidableEq K]

/-- `cache_map.find(key)`: the node handle bound to `key`, if any. -/
def mapFind (m : List (K × Nat)) (k : K) : Option Nat :=
  (m.find? (fun p => decide (p.1 = k))).map Prod.snd

/-- `cache_map.erase(key)`. -/
def mapErase (m : List (K × Nat)) (k : K) : List (K × Nat) :=
  m.filter (fun p => !(decide (p.1 = k)))

/-- `cache_map[key] = it`: bind `key` to the handle `id`, replacing any
previous binding. -/
def mapInsert (m : List (K × Nat)) (k : K) (id : Nat) : List (K × Nat) :=
  (k, id) :: mapErase m k

/-- Dereference a node handle: the node of `eviction_list` carrying `id`. -/
def findId (l : List (Entry K V)) (id : Nat) : Option (Entry K V) :=
  l.find? (fun e => decide (e.id = id))

/-- `eviction_list.erase(it)`: drop the node carrying `id`. -/
def eraseId (l : List (Entry K V)) (id : Nat) : List (Entry K V) :=
  l.filter (fun e => !(decide (e.id = id)))

/-- In-place mutation of a node's stored value through a reference
(`std::get<1>(*it)`). -/
def updateValue (l : List (Entry K V)) (id : Nat) (v : V) : List (Entry K V) :=
  l.map (fun e => if e.id = id then { e with value := v } else e)

/-- `push_`: `lru_eviction` does `emplace_front`, `mru_eviction` does
`emplace_back`; the returned iterator is the new node. -/
def push_ (st : Strategy) (e : Entry K V) (l : List (Entry K V)) : List (Entry K V) :=
  match st with
  | .lru => e :: l
  | .mru => l ++ [e]

/-- `touch_`: `splice` the node to the front (`lru_eviction`) or to the back
(`mru_eviction`).  Splicing a dangling iterator is undefined behaviour,
modelled as `none`. -/
def touch_ (st : Strategy) (id : Nat) (l : List (Entry K V)) : Option (List (Entry K V)) :=
  match findId l id with
  | none => none
  | some e =>
    match st with
    | .lru => some (e :: eraseId l id)
    | .mru => some (eraseId l id ++ [e])

/-- `fit_`, identical in `lru_eviction` and `mru_eviction`:
`while (0 < max_size && current_size > max_size)` pop the entry at the back,
erase its key from the index via the callback, and subtract its size.  The
loop condition checks only the sizes; taking `back()` of an empty list is
undefined behaviour, modelled as `none`. -/
def fit_ (calc_size : V → Nat) (max : Nat) (cs : Nat) (l : List (Entry K V))
    (m : List (K × Nat)) : Option (Nat × List (Entry K V) × List (K × Nat)) :=
  if 0 < max ∧ max < cs then
    match h : l.getLast? with
    | none => none
    | some e => fit_ calc_size max (cs - calc_size e.value) l.dropLast (mapErase m e.key)
  else
    some (cs, l, m)
termination_by l.length
decreasing_by
  have hne : l ≠ [] := by
    intro hl
    rw [hl] at h
    simp at h
  have hpos : 0 < l.length := List.length_pos.mpr hne
  rw [List.length_dropLast]
  omega

/-- The freshly constructed cache:
`cache(_max_size, strong_assoc)` with empty index and eviction list. -/
def initCache (max : Nat) (strong : Bool) : CacheState K V :=
  ⟨[], [], 0, max, strong, 0⟩

namespace cache

/-- `cache::touch(key)` (protected): look the key up and, when present,
`touch_` its node; returns the iterator together with the found flag. -/
def touch (st : Strategy) (k : K) (s : CacheState K V) :
    Option (Option Nat × Bool × CacheState K V) :=
  match mapFind s.cache_map k with
  | none => some (none, false, s)
  | some id =>
    match touch_ st id s.eviction_list with
    | none => none
    | some l => some (some id, true, { s with eviction_list := l })

/-- The unconditional tail of `cache::add_`: account the new value's size,
run `fit_`, then push the new node and bind the key to it. -/
def addCore (st : Strategy) (calc_size : V → Nat) (k : K) (v : V) (dirty : Bool)
    (s : CacheState K V) : Option (CacheState K V) :=
  match fit_ calc_size s.max_size (s.current_size + calc_size v) s.eviction_list s.cache_map with
  | none => none
  | some (cs, l, m) =>
    some { s with
      current_size := cs
      eviction_list := push_ st ⟨s.next_id, k, v, dirty⟩ l
      cache_map := mapInsert m k s.next_id
      next_id := s.next_id + 1 }

/-- `cache::add_(key, value, dirty)` (protected): in strong mode it first
touches the key and returns early when `touch` reports the key absent
(`if (!touch(key).second) return;`), otherwise it falls through to the
size-account / `fit_` / `push_` sequence. -/
def add_ (st : Strategy) (calc_size : V → Nat) (k : K) (v : V) (dirty : Bool)
    (s : CacheState K V) : Option (CacheState K V) :=
  if s.strong then
    match touch st k s with
    | none => none
    | some (_, false, _) => some s
    | some (_, true, s1) => addCore st calc_size k v dirty s1
  else
    addCore st calc_size k v dirty s

/-- `cache::remove(key, dirty)` (protected): when the key is present, reject
(returning `false`) if the incoming write is dirty and the stored entry is
not; otherwise subtract the entry's size and erase it from index and list. -/
def removeD (calc_size : V → Nat) (k : K) (dirty : Bool) (s : CacheState K V) :
    Option (Bool × CacheState K V) :=
  match mapFind s.cache_map k with
  | none => some (true, s)
  | some id =>
    match findId s.eviction_list id with
    | none => none
    | some e =>
      if dirty && !e.dirty then
        some (false, s)
      else
        some (true, { s with
          current_size := s.current_size - calc_size e.value
          cache_map := mapErase s.cache_map k
          eviction_list := eraseId s.eviction_list id })

/-- `cache::add(key, value, dirty)`: outside strong mode first run
`remove(key, dirty)` and stop when it rejects; then `add_`. -/
def add (st : Strategy) (calc_size : V → Nat) (k : K) (v : V) (dirty : Bool)
    (s : CacheState K V) : Option (CacheState K V) :=
  if s.strong then
    add_ st calc_size k v dirty s
  else
    match removeD calc_size k dirty s with
    | none => none
    | some (false, s1) => some s1
    | some (true, s1) => add_ st calc_size k v dirty s1

/-- `cache::merge(key, value, dirty)`: strong mode and absent keys behave as
`add_`; for a present key the stored value is combined in place
(`old_value->merge(*value)`), the node is `touch_`ed, the result is trimmed
to `max_size` when it exceeds a positive `max_size` (the code then takes
`new_size = max_size`), `current_size` is adjusted by the delta and `fit_`
runs. -/
def merge (st : Strategy) (calc_size : V → Nat) (combine : V → V → V)
    (trim : V → Nat → V) (k : K) (v : V) (dirty : Bool) (s : CacheState K V) :
    Option (CacheState K V) :=
  if s.strong then
    add_ st calc_size k v dirty s
  else
    match mapFind s.cache_map k with
    | none => add_ st calc_size k v dirty s
    | some id =>
      match findId s.eviction_list id with
      | none => none
      | some e =>
        let old_size := calc_size e.value
        let comb := combine e.value v
        match touch_ st id (updateValue s.eviction_list id comb) with
        | none => none
        | some l2 =>
          let ns0 := calc_size comb
          let p := if 0 < s.max_size ∧ s.max_size < ns0 then
                     (updateValue l2 id (trim comb s.max_size), s.max_size)
                   else
                     (l2, ns0)
          let cs1 := if old_size < p.2 then s.current_size + (p.2 - old_size)
                     else if old_size > p.2 then s.current_size - (old_size - p.2)
                     else s.current_size
          match fit_ calc_size s.max_size cs1 p.1 s.cache_map with
          | none => none
          | some (cs, l, m) =>
            some { s with current_size := cs, eviction_list := l, cache_map := m }

/-- `cache::resize(new_max)`: install the new `max_size` and run `fit_`. -/
def resize (calc_size : V → Nat) (new_max : Nat) (s : CacheState K V) :
    Option (CacheState K V) :=
  match fit_ calc_size new_max s.current_size s.eviction_list s.cache_map with
  | none => none
  | some (cs, l, m) =>
    some { s with max_size := new_max, current_size := cs, eviction_list := l, cache_map := m }

/-- `cache::clear()`: empty both containers and reset `current_size`. -/
def clear (s : CacheState K V) : CacheState K V :=
  { s with eviction_list := [], cache_map := [], current_size := 0 }

/-- `cache::get(key, ret, do_touch)`: the returned value is `some v` on a hit
(`return 0`), `none` on a miss (`return -1`); the state reflects the touch. -/
def get (st : Strategy) (k : K) (do_touch : Bool) (s : CacheState K V) :
    Option (Option V × CacheState K V) :=
  if do_touch then
    match touch st k s with
    | none => none
    | some (_, false, s1) => some (none, s1)
    | some (elemIt, true, s1) =>
      match elemIt with
      | none => none
      | some id =>
        match findId s1.eviction_list id with
        | none => none
        | some e => some (some e.value, s1)
  else
    match mapFind s.cache_map k with
    | none => some (none, s)
    | some id =>
      match findId s.eviction_list id with
      | none => none
      | some e => some (some e.value, s)

/-- `cache::remove(key)` (public): `remove(key, false)`, discarding the flag. -/
def remove (calc_size : V → Nat) (k : K) (s : CacheState K V) :
    Option (CacheState K V) :=
  match removeD calc_size k false s with
  | none => none
  | some (_, s1) => some s1

end cache

/-- Sum of the size calculator over the values held by a list of entries:
the quantity `current_size` is meant to track. -/
def listSize (calc_size : V → Nat) (l : List (Entry K V)) : Nat :=
  (l.map (fun e => calc_size e.value)).sum

/-- Structural well-formedness of a cache state: `current_size` agrees with
the eviction list, node identifiers are pairwise distinct, and every node
identifier is below the allocation counter. -/
def Inv (calc_size : V → Nat) (s : CacheState K V) : Prop :=
  s.current_size = listSize calc_size s.eviction_list ∧
  (s.eviction_list.map Entry.id).Nodup ∧
  ∀ e ∈ s.eviction_list, e.id < s.next_id

/-- Insert keys `0, …, n-1` in order (`add i i false`), with the default
unit size calculator. -/
def addSeq (st : Strategy) : Nat → CacheState Nat Nat → Option (CacheState Nat Nat)
  | 0, s => some s
  | n + 1, s =>
    match addSeq st n s with
    | none => none
    | some s1 => cache.add st (fun _ => 1) n n false s1

/-- The entry produced for key `i` by the fill of `addSeq` (node id, key and
value all equal to `i`). -/
def fillEntry (i : Nat) : Entry Nat Nat :=
  ⟨i, i, i, false⟩

/-- The fill entries with indices `b + m - 1, …, b + 1, b`, newest first:
the LRU eviction list after filling keys `b, …, b + m - 1` in order. -/
def descEntriesFrom (b : Nat) : Nat → List (Entry Nat Nat)
  | 0 => []
  | m + 1 => fillEntry (b + m) :: descEntriesFrom b m

/-- The fill entries with indices `b, b + 1, …, b + m - 1`, oldest first:
the MRU eviction list after filling keys `b, …, b + m - 1` in order. -/
def ascEntriesFrom (b : Nat) : Nat → List (Entry Nat Nat)
  | 0 => []
  | m + 1 => fillEntry b :: ascEntriesFrom (b + 1) m

/-- Index contents after filling keys `0, …, n-1` (either strategy). -/
def descPairs : Nat → List (Nat × Nat)
  | 0 => []
  | n + 1 => (n, n) :: descPairs n

/-- The states a cache can be in: the freshly constructed cache, plus
everything reachable through completed public operations (an operation whose
run hits undefined behaviour, `none`, never returns and so yields no state). -/
inductive Reach (st : Strategy) (calc_size : V → Nat) (combine : V → V → V)
    (trim : V → Nat → V) : CacheState K V → Prop
  | init (max : Nat) (strong : Bool) :
      Reach st calc_size combine trim (initCache max strong)
  | addStep {s s' : CacheState K V} (k : K) (v : V) (d : Bool) :
      Reach st calc_size combine trim s → cache.add st calc_size k v d s = some s' →
      Reach st calc_size combine trim s'
  | mergeStep {s s' : CacheState K V} (k : K) (v : V) (d : Bool) :
      Reach st calc_size combine trim s →
      cache.merge st calc_size combine trim k v d s = some s' →
      Reach st calc_size combine trim s'
  | resizeStep {s s' : CacheState K V} (n : Nat) :
      Reach st calc_size combine trim s → cache.resize calc_size n s = some s' →
      Reach st calc_size combine trim s'
  | removeStep {s s' : CacheState K V} (k : K) :
      Reach st calc_size combine trim s → cache.remove calc_size k s = some s' →
      Reach st calc_size combine trim s'
  | clearStep {s : CacheState K V} :
      Reach st calc_size combine trim s → Reach st calc_size combine trim (cache.clear s)
  | getStep {s s' : CacheState K V} (k : K) (t : Bool) (r : Option V) :
      Reach st calc_size combine trim s → cache.get st k t s = some (r, s') →
      Reach st calc_size combine trim s'

/-- Non-dependent unfolding of one iteration of the `fit_` loop. -/
theorem fit_eq (calc_size : V → Nat) (max cs : Nat) (l : List (Entry K V))
    (m : List (K × Nat)) :
    fit_ calc_size max cs l m =
      if 0 < max ∧ max < cs then
        match l.getLast? with
        | none => none
        | some e => fit_ calc_size max (cs - calc_size e.value) l.dropLast (mapErase m e.key)
      else some (cs, l, m) := by
  rw [fit_]
  split
  · split <;> rename_i heq <;> rw [heq]
  · rfl

theorem listSize_append (calc_size : V → Nat) (l₁ l₂ : List (Entry K V)) :
    listSize calc_size (l₁ ++ l₂) = listSize calc_size l₁ + listSize calc_size l₂ := by
  simp [listSize]

theorem findId_id {l : List (Entry K V)} {id : Nat} {e : Entry K V}
    (h : findId l id = some e) : e.id = id := by
  have := List.find?_some h
  simpa using this

theorem findId_mem {l : List (Entry K V)} {id : Nat} {e : Entry K V}
    (h : findId l id = some e) : e ∈ l :=
  List.mem_of_find?_eq_some h

theorem findId_eq_none {l : List (Entry K V)} {id : Nat}
    (h : ∀ e ∈ l, e.id ≠ id) : findId l id = none := by
  simp only [findId, List.find?_eq_none]
  intro e he
  simpa using h e he

theorem findId_eraseId_self (l : List (Entry K V)) (id : Nat) :
    findId (eraseId l id) id = none := by
  apply findId_eq_none
  intro e he
  have := List.of_mem_filter he
  simpa using this

theorem mem_eraseId {l : List (Entry K V)} {id : Nat} {e : Entry K V}
    (h : e ∈ eraseId l id) : e ∈ l :=
  List.mem_of_mem_filter h

theorem findId_cons (a : Entry K V) (t : List (Entry K V)) (id : Nat) :
    findId (a :: t) id = if a.id = id then some a else findId t id := by
  by_cases hid : a.id = id <;> simp [findId, hid]

theorem eraseId_cons (a : Entry K V) (t : List (Entry K V)) (id : Nat) :
    eraseId (a :: t) id = if a.id = id then eraseId t id else a :: eraseId t id := by
  by_cases hid : a.id = id <;> simp [eraseId, List.filter_cons, hid]

/-- With pairwise-distinct node identifiers, detaching the node found for a
handle is a permutation: the list is the found node plus the rest. -/
theorem perm_eraseId {l : List (Entry K V)} {id : Nat} {e : Entry K V}
    (hnd : (l.map Entry.id).Nodup) (h : findId l id = some e) :
    l.Perm (e :: eraseId l id) := by
  induction l with
  | nil => simp [findId] at h
  | cons a t ih =>
    rw [List.map_cons, List.nodup_cons] at hnd
    obtain ⟨ha, hnd'⟩ := hnd
    rw [findId_cons] at h
    rw [eraseId_cons]
    by_cases hid : a.id = id
    · rw [if_pos hid] at h ⊢
      obtain rfl : a = e := Option.some.inj h
      have ht : eraseId t id = t := by
        rw [eraseId, List.filter_eq_self]
        intro x hx
        simp only [Bool.not_eq_true', decide_eq_false_iff_not]
        intro hxid
        apply ha
        rw [hid, ← hxid]
        exact List.mem_map_of_mem Entry.id hx
      rw [ht]
    · rw [if_neg hid] at h ⊢
      exact ((ih hnd' h).cons a).trans (List.Perm.swap e a _)

theorem listSize_perm (calc_size : V → Nat) {l₁ l₂ : List (Entry K V)}
    (h : l₁.Perm l₂) : listSize calc_size l₁ = listSize calc_size l₂ :=
  (h.map _).sum_eq

/-- Size accounting of detaching a found node. -/
theorem listSize_eraseId (calc_size : V → Nat) {l : List (Entry K V)} {id : Nat}
    {e : Entry K V} (hnd : (l.map Entry.id).Nodup) (h : findId l id = some e) :
    listSize calc_size l = calc_size e.value + listSize calc_size (eraseId l id) := by
  have := listSize_perm calc_size (perm_eraseId hnd h)
  simpa [listSize] using this

theorem findId_append (l₁ l₂ : List (Entry K V)) (id : Nat) :
    findId (l₁ ++ l₂) id = (findId l₁ id).or (findId l₂ id) := by
  simp [findId, List.find?_append]

theorem findId_push_fresh (st : Strategy) {l : List (Entry K V)} (e : Entry K V)
    (h : ∀ e' ∈ l, e'.id ≠ e.id) : findId (push_ st e l) e.id = some e := by
  cases st
  · simp [push_, findId]
  · rw [push_]
    rw [findId_append, findId_eq_none h]
    simp [findId]

/-- `touch_` keeps the touched node reachable through its handle. -/
theorem touch_findId (st : Strategy) {l : List (Entry K V)} {id : Nat}
    {e : Entry K V} (h : findId l id = some e) :
    ∃ l', touch_ st id l = some l' ∧ findId l' id = some e := by
  have he := findId_id h
  cases st
  · refine ⟨e :: eraseId l id, ?_, ?_⟩
    · simp [touch_, h]
    · simp [findId, he]
  · refine ⟨eraseId l id ++ [e], ?_, ?_⟩
    · simp [touch_, h]
    · rw [findId_append, findId_eraseId_self]
      simp [findId, he]

theorem updateValue_cons (a : Entry K V) (t : List (Entry K V)) (id : Nat) (w : V) :
    updateValue (a :: t) id w =
      (if a.id = id then { a with value := w } else a) :: updateValue t id w := by
  simp [updateValue]

theorem ids_updateValue (l : List (Entry K V)) (id : Nat) (w : V) :
    (updateValue l id w).map Entry.id = l.map Entry.id := by
  induction l with
  | nil => rfl
  | cons a t ih =>
    rw [updateValue_cons, List.map_cons, List.map_cons, ih]
    by_cases hid : a.id = id <;> simp [hid]

theorem updateValue_eq_self {l : List (Entry K V)} {id : Nat} {w : V}
    (h : ∀ e ∈ l, e.id ≠ id) : updateValue l id w = l := by
  induction l with
  | nil => rfl
  | cons a t ih =>
    rw [updateValue_cons, if_neg (h a (List.mem_cons_self a t)),
      ih (fun e he => h e (List.mem_cons_of_mem a he))]

/-- With pairwise-distinct node identifiers, the node found for a handle is
the only node carrying it. -/
theorem mem_id_unique {l : List (Entry K V)} {id : Nat} {e : Entry K V}
    (hnd : (l.map Entry.id).Nodup) (h : findId l id = some e) :
    ∀ a ∈ l, a.id = id → a = e := by
  induction l with
  | nil => simp
  | cons b t ih =>
    rw [List.map_cons, List.nodup_cons] at hnd
    obtain ⟨hb, hnd'⟩ := hnd
    rw [findId_cons] at h
    intro a ha haid
    rcases List.mem_cons.mp ha with rfl | hat
    · rw [if_pos haid] at h
      exact Option.some.inj h
    · by_cases hbid : b.id = id
      · exfalso
        apply hb
        rw [hbid, ← haid]
        exact List.mem_map_of_mem Entry.id hat
      · rw [if_neg hbid] at h
        exact ih hnd' h a hat haid

theorem findId_updateValue {l : List (Entry K V)} {id : Nat} {e : Entry K V}
    (h : findId l id = some e) (w : V) :
    findId (updateValue l id w) id = some { e with value := w } := by
  induction l with
  | nil => simp [findId] at h
  | cons a t ih =>
    rw [findId_cons] at h
    rw [updateValue_cons]
    by_cases hid : a.id = id
    · rw [if_pos hid] at h
      obtain rfl : a = e := Option.some.inj h
      rw [if_pos hid, findId_cons, if_pos hid]
    · rw [if_neg hid] at h
      rw [if_neg hid, findId_cons, if_neg hid]
      exact ih h

theorem listSize_updateValue (calc_size : V → Nat) {l : List (Entry K V)}
    {id : Nat} {e : Entry K V} (hnd : (l.map Entry.id).Nodup)
    (h : findId l id = some e) (w : V) :
    listSize calc_size (updateValue l id w) + calc_size e.value =
      listSize calc_size l + calc_size w := by
  induction l with
  | nil => simp [findId] at h
  | cons a t ih =>
    rw [List.map_cons, List.nodup_cons] at hnd
    obtain ⟨ha, hnd'⟩ := hnd
    rw [findId_cons] at h
    rw [updateValue_cons]
    by_cases hid : a.id = id
    · rw [if_pos hid] at h
      obtain rfl : a = e := Option.some.inj h
      have ht : updateValue t id w = t := by
        apply updateValue_eq_self
        intro x hx hxid
        apply ha
        rw [hid, ← hxid]
        exact List.mem_map_of_mem Entry.id hx
      rw [if_pos hid, ht]
      simp [listSize]
      omega
    · rw [if_neg hid] at h
      rw [if_neg hid]
      have := ih hnd' h
      simp [listSize] at this ⊢
      omega

theorem mem_updateValue_ne {l : List (Entry K V)} {id : Nat} {w : V}
    {e' : Entry K V} (h : e' ∈ updateValue l id w) (hne : e'.id ≠ id) : e' ∈ l := by
  rw [updateValue, List.mem_map] at h
  obtain ⟨a, ha, rfl⟩ := h
  by_cases hid : a.id = id
  · rw [if_pos hid] at hne ⊢
    exact absurd hid hne
  · rwa [if_neg hid]

theorem mem_updateValue_eq {l : List (Entry K V)} {id : Nat} {w : V}
    {e e' : Entry K V} (hnd : (l.map Entry.id).Nodup)
    (hfind : findId l id = some e) (h : e' ∈ updateValue l id w)
    (hid : e'.id = id) : e' = { e with value := w } := by
  rw [updateValue, List.mem_map] at h
  obtain ⟨a, ha, rfl⟩ := h
  by_cases haid : a.id = id
  · rw [if_pos haid]
    rw [mem_id_unique hnd hfind a ha haid]
  · rw [if_neg haid] at hid ⊢
    exact absurd hid haid

/-- Splicing a found node to either end of the list is a permutation. -/
theorem touch_perm {st : Strategy} {l l' : List (Entry K V)} {id : Nat}
    {e : Entry K V} (hnd : (l.map Entry.id).Nodup)
    (hfind : findId l id = some e) (h : touch_ st id l = some l') : l'.Perm l := by
  have hperm := perm_eraseId hnd hfind
  cases st <;> rw [touch_, hfind] at h
  · obtain rfl := Option.some.inj h
    exact hperm.symm
  · obtain rfl := Option.some.inj h
    exact (List.perm_append_singleton e _).trans hperm.symm

theorem calc_le_listSize (calc_size : V → Nat) {l : List (Entry K V)}
    {e : Entry K V} (h : e ∈ l) : calc_size e.value ≤ listSize calc_size l :=
  List.single_le_sum (fun _ _ => Nat.zero_le _) _
    (List.mem_map_of_mem (fun e => calc_size e.value) h)

theorem mapFind_mapInsert_self (m : List (K × Nat)) (k : K) (id : Nat) :
    mapFind (mapInsert m k id) k = some id := by
  simp [mapFind, mapInsert]

theorem mapFind_mapErase_self (m : List (K × Nat)) (k : K) :
    mapFind (mapErase m k) k = none := by
  simp only [mapFind, mapErase, Option.map_eq_none']
  rw [List.find?_eq_none]
  intro p hp
  have := List.of_mem_filter hp
  simpa using this

theorem mapFind_cons (p : K × Nat) (t : List (K × Nat)) (k : K) :
    mapFind (p :: t) k = if p.1 = k then some p.2 else mapFind t k := by
  by_cases hp : p.1 = k <;> simp [mapFind, hp]

theorem mapErase_cons (p : K × Nat) (t : List (K × Nat)) (k : K) :
    mapErase (p :: t) k = if p.1 = k then mapErase t k else p :: mapErase t k := by
  by_cases hp : p.1 = k <;> simp [mapErase, List.filter_cons, hp]

theorem mapFind_mapErase_ne (m : List (K × Nat)) {k k' : K} (h : k' ≠ k) :
    mapFind (mapErase m k) k' = mapFind m k' := by
  induction m with
  | nil => rfl
  | cons p t ih =>
    rw [mapErase_cons]
    by_cases hp : p.1 = k
    · rw [if_pos hp, ih, mapFind_cons, if_neg (by rw [hp]; exact fun hh => h hh.symm)]
    · rw [if_neg hp, mapFind_cons, mapFind_cons, ih]

/-- Every successful run of the `fit_` loop exits with the loop condition
false, a back-segment of the original list removed, index bindings only
erased, and the size accounting shifted along. -/
theorem fit_some_spec (calc_size : V → Nat) (max : Nat) :
    ∀ (cs : Nat) (l : List (Entry K V)) (m : List (K × Nat))
      (r : Nat × List (Entry K V) × List (K × Nat)),
      fit_ calc_size max cs l m = some r →
      ¬(0 < max ∧ max < r.1) ∧ r.2.1.Sublist l ∧ r.2.2.Sublist m ∧
        ∀ x : Nat, cs = listSize calc_size l + x → r.1 = listSize calc_size r.2.1 + x := by
  intro cs l m
  induction cs, l, m using @fit_.induct K V _ calc_size max with
  | case1 cs l m hcond hlast =>
    intro r hr
    rw [fit_, if_pos hcond] at hr
    split at hr
    · exact absurd hr (by simp)
    · rename_i e' heq
      rw [hlast] at heq
      exact absurd heq (by simp)
  | case2 cs l m hcond e hlast ih =>
    intro r hr
    rw [fit_, if_pos hcond] at hr
    split at hr
    · rename_i heq
      rw [hlast] at heq
      exact absurd heq (by simp)
    rename_i e' heq
    rw [hlast] at heq
    obtain rfl : e = e' := by exact (Option.some.inj heq)
    obtain ⟨hne, hsub, hmsub, hsum⟩ := ih r hr
    have hl : l.dropLast ++ [e] = l := List.dropLast_append_getLast? e hlast
    have hsz : listSize calc_size l = listSize calc_size l.dropLast + calc_size e.value := by
      conv_lhs => rw [← hl]
      simp [listSize]
    refine ⟨hne, hsub.trans (List.dropLast_sublist l),
      hmsub.trans (List.filter_sublist m), ?_⟩
    intro x hx
    exact hsum x (by omega)
  | case3 cs l m hcond =>
    intro r hr
    rw [fit_, if_neg hcond] at hr
    obtain rfl : (cs, l, m) = r := by exact Option.some.inj hr
    exact ⟨hcond, List.Sublist.refl _, List.Sublist.refl _, fun x hx => hx⟩

/-- When `current_size` exceeds the sizes recorded in the eviction list by
at most a slack that itself fits the budget, the `fit_` loop terminates
without ever popping an empty list. -/
theorem fit_isSome (calc_size : V → Nat) (max x : Nat) (hx : max = 0 ∨ x ≤ max) :
    ∀ (cs : Nat) (l : List (Entry K V)) (m : List (K × Nat)),
      cs ≤ listSize calc_size l + x → (fit_ calc_size max cs l m).isSome := by
  intro cs l m
  induction cs, l, m using @fit_.induct K V _ calc_size max with
  | case1 cs l m hcond hlast =>
    intro hle
    have : l = [] := by simpa using hlast
    subst this
    simp [listSize] at hle
    rcases hx with hx | hx <;> omega
  | case2 cs l m hcond e hlast ih =>
    intro hle
    have hl : l.dropLast ++ [e] = l := List.dropLast_append_getLast? e hlast
    have hsz : listSize calc_size l = listSize calc_size l.dropLast + calc_size e.value := by
      conv_lhs => rw [← hl]
      simp [listSize]
    have hle' : cs - calc_size e.value ≤ listSize calc_size l.dropLast + x := by omega
    rw [fit_, if_pos hcond]
    split
    · rename_i heq
      rw [hlast] at heq
      exact absurd heq (by simp)
    rename_i e' heq
    rw [hlast] at heq
    obtain rfl : e = e' := by exact (Option.some.inj heq)
    exact ih hle'
  | case3 cs l m hcond =>
    intro _
    rw [fit_, if_neg hcond]
    simp

/-- C1: the claim says a strong-association cache unconditionally inserts on
`add`, in particular `add` of a key not currently in the cache stores it.
The code does the opposite: `add_` returns early when `touch(key)` reports
the key absent (the condition is inverted relative to the code's own
comment), so `add(0, 15)` on an empty strong cache leaves the state
unchanged and `get(0)` still misses. -/
theorem c1_strong_add_stores_nothing :
    cache.add .lru (fun _ => 1) 0 15 false (initCache (K := Nat) (V := Nat) 4 true) =
      some (initCache 4 true) ∧
    cache.get .lru 0 true (initCache (K := Nat) (V := Nat) 4 true) =
      some (none, initCache 4 true) := by
  constructor <;> rfl

/-- C2: the claim says `add` of a value whose unit size exceeds `max_size`
completes normally, the entry being admitted and then immediately evicted.
In the code `add_` accounts the new size and runs `fit_` *before* pushing
the entry, so the loop drains the whole eviction list and then takes
`back()` of the empty list: undefined behaviour (`none`), both on an empty
cache and on one holding smaller entries.  The size calculator here is the
identity, so the value `5` has unit size `5`. -/
theorem c2_oversized_add_hits_undefined_behaviour :
    cache.add .lru (fun v => v) 0 5 false (initCache (K := Nat) (V := Nat) 1 false) =
      none ∧
    cache.add .lru (fun v => v) 1 5 false
      (⟨[⟨0, 0, 1, false⟩], [(0, 0)], 1, 3, false, 1⟩ : CacheState Nat Nat) = none := by
  constructor
  · simp [cache.add, cache.removeD, mapFind, cache.add_, cache.addCore, initCache, fit_eq]
  · simp [cache.add, cache.removeD, mapFind, cache.add_, cache.addCore, findId, fit_eq,
      mapErase]

/-- C3: the claim says the `fit_` loop terminates when the eviction sequence
is empty and never takes an entry from an empty sequence.  The loop
condition checks only `max_size` and `current_size`; invoked over budget
with an empty sequence (as `add_` does for an oversized value) it pops the
empty list — undefined behaviour (`none`) — and likewise after draining a
non-empty sequence while still over budget. -/
theorem c3_fit_pops_the_empty_sequence :
    fit_ (K := Nat) (fun v => v) 1 5 [] [] = none ∧
    fit_ (fun v => v) 2 7 [⟨0, (0 : Nat), (3 : Nat), false⟩] [(0, 0)] = none := by
  constructor
  · simp [fit_eq]
  · simp [fit_eq, mapErase]

/-- C5: dirty-write protection.  Outside strong-association mode, with a
non-dirty entry `e` stored for `k`: `add(k, v2, dirty=true)` is rejected and
returns the state completely unchanged (so the old value, `current_size`
and the eviction order are all preserved and `v2` is discarded); `get(k)`
still serves the old value; and a subsequent `add(k, v3, dirty=false)`
overwrites, after which `get(k)` returns `v3` (provided `v3` fits the
capacity at all, `hfit`). -/
theorem c5_dirty_write_protection (st : Strategy) (calc_size : V → Nat)
    (s : CacheState K V) (k : K) (id : Nat) (e : Entry K V) (v2 v3 : V)
    (hInv : Inv calc_size s) (hstrong : s.strong = false)
    (hmap : mapFind s.cache_map k = some id)
    (hfind : findId s.eviction_list id = some e)
    (hclean : e.dirty = false)
    (hfit : s.max_size = 0 ∨ calc_size v3 ≤ s.max_size) :
    cache.add st calc_size k v2 true s = some s ∧
    (∃ s1, cache.get st k true s = some (some e.value, s1)) ∧
    ∃ s3 s4, cache.add st calc_size k v3 false s = some s3 ∧
      cache.get st k true s3 = some (some v3, s4) := by
  obtain ⟨hsz, hnd, hlt⟩ := hInv
  refine ⟨?_, ?_, ?_⟩
  · simp [cache.add, hstrong, cache.removeD, hmap, hfind, hclean]
  · obtain ⟨l', hl', hfind'⟩ := touch_findId st hfind
    exact ⟨{ s with eviction_list := l' },
      by simp [cache.get, cache.touch, hmap, hl', hfind']⟩
  · have hszerase : s.current_size - calc_size e.value
        = listSize calc_size (eraseId s.eviction_list id) := by
      have := listSize_eraseId calc_size hnd hfind
      omega
    have hfitsome :=
      fit_isSome calc_size s.max_size (calc_size v3) hfit
        (s.current_size - calc_size e.value + calc_size v3)
        (eraseId s.eviction_list id) (mapErase s.cache_map k) (by omega)
    obtain ⟨⟨cs2, l2, m2⟩, hfitr⟩ := Option.isSome_iff_exists.mp hfitsome
    obtain ⟨-, hsub, -, -⟩ := fit_some_spec calc_size s.max_size _ _ _ _ hfitr
    have hfresh : ∀ e' ∈ l2, e'.id ≠ s.next_id := by
      intro e' he'
      exact Nat.ne_of_lt (hlt e' (mem_eraseId (hsub.subset he')))
    have hpush : findId (push_ st ⟨s.next_id, k, v3, false⟩ l2) s.next_id
        = some ⟨s.next_id, k, v3, false⟩ :=
      findId_push_fresh st ⟨s.next_id, k, v3, false⟩ hfresh
    obtain ⟨l'', htl, hfind''⟩ := touch_findId st hpush
    refine ⟨{ s with
        current_size := cs2
        eviction_list := push_ st ⟨s.next_id, k, v3, false⟩ l2
        cache_map := mapInsert m2 k s.next_id
        next_id := s.next_id + 1 },
      { s with
        current_size := cs2
        eviction_list := l''
        cache_map := mapInsert m2 k s.next_id
        next_id := s.next_id + 1 }, ?_, ?_⟩
    · simp [cache.add, hstrong, cache.removeD, hmap, hfind, cache.add_,
        cache.addCore, hfitr]
    · simp [cache.get, cache.touch, mapFind_mapInsert_self, htl, hfind'']

/-- Witness for C5: an unbounded non-strong LRU cache holding the clean
entry `(0, 5)`; the dirty write `6` is rejected, the clean write `7` then
overwrites. -/
theorem c5_witness :
    Inv (fun _ => 1) (⟨[⟨0, 0, 5, false⟩], [(0, 0)], 1, 0, false, 1⟩ : CacheState Nat Nat) ∧
    (⟨[⟨0, 0, 5, false⟩], [(0, 0)], 1, 0, false, 1⟩ : CacheState Nat Nat).strong = false ∧
    mapFind (⟨[⟨0, 0, 5, false⟩], [(0, 0)], 1, 0, false, 1⟩ : CacheState Nat Nat).cache_map 0 =
      some 0 ∧
    findId (⟨[⟨0, 0, 5, false⟩], [(0, 0)], 1, 0, false, 1⟩ : CacheState Nat Nat).eviction_list 0 =
      some ⟨0, 0, 5, false⟩ ∧
    (⟨0, 0, 5, false⟩ : Entry Nat Nat).dirty = false ∧
    ((⟨[⟨0, 0, 5, false⟩], [(0, 0)], 1, 0, false, 1⟩ : CacheState Nat Nat).max_size = 0 ∨
      (fun _ => 1 : Nat → Nat) 7 ≤
        (⟨[⟨0, 0, 5, false⟩], [(0, 0)], 1, 0, false, 1⟩ : CacheState Nat Nat).max_size) ∧
    (cache.add .lru (fun _ => 1) 0 6 true
        (⟨[⟨0, 0, 5, false⟩], [(0, 0)], 1, 0, false, 1⟩ : CacheState Nat Nat) =
      some ⟨[⟨0, 0, 5, false⟩], [(0, 0)], 1, 0, false, 1⟩ ∧
    (∃ s1, cache.get .lru 0 true
        (⟨[⟨0, 0, 5, false⟩], [(0, 0)], 1, 0, false, 1⟩ : CacheState Nat Nat) =
      some (some 5, s1)) ∧
    ∃ s3 s4, cache.add .lru (fun _ => 1) 0 7 false
        (⟨[⟨0, 0, 5, false⟩], [(0, 0)], 1, 0, false, 1⟩ : CacheState Nat Nat) = some s3 ∧
      cache.get .lru 0 true s3 = some (some 7, s4)) :=
  ⟨⟨rfl, by decide, by decide⟩, rfl, rfl, rfl, rfl, Or.inl rfl,
    c5_dirty_write_protection .lru (fun _ => 1)
      ⟨[⟨0, 0, 5, false⟩], [(0, 0)], 1, 0, false, 1⟩ 0 0 ⟨0, 0, 5, false⟩ 6 7
      ⟨rfl, by decide, by decide⟩ rfl rfl rfl rfl (Or.inl rfl)⟩

/-- Behaviour of `cache::merge(key, value, dirty)` on a present key outside
strong mode, assuming the trim capability meets its contract
(`calc_size (trim w n) = n`).  The combined value is stored in place in the
found node (trimmed when it exceeds a positive `max_size`), the node is
spliced per the strategy, `current_size` is adjusted by the delta between
the old and the new size, `fit_` runs, and the operation completes.
Shared basis for the claims about `merge`. -/
theorem merge_present (st : Strategy) (calc_size : V → Nat)
    (combine : V → V → V) (trim : V → Nat → V) {s : CacheState K V}
    {k : K} {id : Nat} {e : Entry K V} (v : V) (d : Bool)
    (hInv : Inv calc_size s) (hstrong : s.strong = false)
    (hmap : mapFind s.cache_map k = some id)
    (hfind : findId s.eviction_list id = some e)
    (htrim : ∀ w n, calc_size (trim w n) = n) :
    ∃ s', cache.merge st calc_size combine trim k v d s = some s' ∧
      s'.max_size = s.max_size ∧ s'.strong = s.strong ∧ s'.next_id = s.next_id ∧
      s'.current_size = listSize calc_size s'.eviction_list ∧
      (0 < s.max_size → s'.current_size ≤ s.max_size) ∧
      (∀ e' ∈ s'.eviction_list, e'.id = id →
        e' = { e with value :=
          (if 0 < s.max_size ∧ s.max_size < calc_size (combine e.value v) then
            trim (combine e.value v) s.max_size
          else combine e.value v) }) ∧
      (∀ e' ∈ s'.eviction_list, e'.id ≠ id → e' ∈ s.eviction_list) ∧
      s'.cache_map.Sublist s.cache_map ∧
      (s'.eviction_list.map Entry.id).Nodup ∧
      (∀ e' ∈ s'.eviction_list, e'.id < s.next_id) ∧
      ∃ l2, touch_ st id (updateValue s.eviction_list id (combine e.value v)) = some l2 ∧
        ∃ cs1, cs1 + calc_size e.value = s.current_size +
            calc_size (if 0 < s.max_size ∧ s.max_size < calc_size (combine e.value v) then
              trim (combine e.value v) s.max_size
            else combine e.value v) ∧
          fit_ calc_size s.max_size cs1
            (if 0 < s.max_size ∧ s.max_size < calc_size (combine e.value v) then
              updateValue l2 id (trim (combine e.value v) s.max_size)
            else l2) s.cache_map =
            some (s'.current_size, s'.eviction_list, s'.cache_map) := by
  obtain ⟨hsz, hnd, hlt⟩ := hInv
  have heid : e.id = id := findId_id hfind
  have hmem : e ∈ s.eviction_list := findId_mem hfind
  have h1 : findId (updateValue s.eviction_list id (combine e.value v)) id =
      some { e with value := combine e.value v } :=
    findId_updateValue hfind (combine e.value v)
  obtain ⟨l2, htouch, hfind2⟩ := touch_findId st h1
  have hnd1 : ((updateValue s.eviction_list id (combine e.value v)).map Entry.id).Nodup := by
    rw [ids_updateValue]
    exact hnd
  have hperm2 : l2.Perm (updateValue s.eviction_list id (combine e.value v)) :=
    touch_perm hnd1 h1 htouch
  have hnd2 : (l2.map Entry.id).Nodup := ((hperm2.map Entry.id).nodup_iff).mpr hnd1
  have hsz2 : listSize calc_size l2 =
      listSize calc_size (updateValue s.eviction_list id (combine e.value v)) :=
    listSize_perm calc_size hperm2
  have hszupd := listSize_updateValue calc_size hnd hfind (combine e.value v)
  have hold_le : calc_size e.value ≤ s.current_size := by
    rw [hsz]
    exact calc_le_listSize calc_size hmem
  have hmem_l2 : ∀ e' ∈ l2, e'.id ≠ id → e' ∈ s.eviction_list := by
    intro e' he' hne
    exact mem_updateValue_ne (hperm2.subset he') hne
  have hlt_l2 : ∀ e' ∈ l2, e'.id < s.next_id := by
    intro e' he'
    by_cases hide : e'.id = id
    · rw [hide, ← heid]
      exact hlt e hmem
    · exact hlt e' (hmem_l2 e' he' hide)
  by_cases htc : 0 < s.max_size ∧ s.max_size < calc_size (combine e.value v)
  · -- the combined value exceeds a positive budget: it is trimmed in place
    have hszupd2 : listSize calc_size
          (updateValue l2 id (trim (combine e.value v) s.max_size)) +
          calc_size (combine e.value v)
        = listSize calc_size l2 + s.max_size := by
      have h2 := listSize_updateValue calc_size hnd2 hfind2
        (trim (combine e.value v) s.max_size)
      rw [htrim] at h2
      simpa using h2
    have hfitsome := fit_isSome calc_size s.max_size 0 (Or.inr (Nat.zero_le _))
      (s.current_size + s.max_size - calc_size e.value)
      (updateValue l2 id (trim (combine e.value v) s.max_size)) s.cache_map (by omega)
    obtain ⟨⟨cs', l', m'⟩, hfitr⟩ := Option.isSome_iff_exists.mp hfitsome
    obtain ⟨hcond, hsubl, hsubm, hsum⟩ := fit_some_spec calc_size s.max_size _ _ _ _ hfitr
    have hsum0 : cs' = listSize calc_size l' := by
      have := hsum 0 (by omega)
      simpa using this
    have hcs1 : (if calc_size e.value < s.max_size then
          s.current_size + (s.max_size - calc_size e.value)
        else if calc_size e.value > s.max_size then
          s.current_size - (calc_size e.value - s.max_size)
        else s.current_size) = s.current_size + s.max_size - calc_size e.value := by
      split_ifs <;> omega
    refine ⟨{ s with current_size := cs', eviction_list := l', cache_map := m' },
      ?_, rfl, rfl, rfl, hsum0, ?_, ?_, ?_, hsubm, ?_, ?_, ?_⟩
    · simp only [cache.merge, hstrong, Bool.false_eq_true, if_false, hmap, hfind,
        htouch, if_pos htc, hcs1]
      rw [hfitr]
    · intro h0
      show cs' ≤ s.max_size
      omega
    · intro e' he' hid
      have he'3 := hsubl.subset he'
      have := mem_updateValue_eq hnd2 hfind2 he'3 hid
      rw [this, if_pos htc]
    · intro e' he' hne
      exact hmem_l2 e' (mem_updateValue_ne (hsubl.subset he') hne) hne
    · have : (l'.map Entry.id).Sublist
          ((updateValue l2 id (trim (combine e.value v) s.max_size)).map Entry.id) :=
        hsubl.map Entry.id
      rw [ids_updateValue] at this
      exact hnd2.sublist this
    · intro e' he'
      by_cases hide : e'.id = id
      · rw [hide, ← heid]
        exact hlt e hmem
      · exact hlt e' (hmem_l2 e'
          (mem_updateValue_ne (hsubl.subset he') hide) hide)
    · refine ⟨l2, htouch, s.current_size + s.max_size - calc_size e.value, ?_, ?_⟩
      · rw [if_pos htc, htrim]
        omega
      · rw [if_pos htc]
        exact hfitr
  · -- the combined value fits (or the cache is unbounded): stored as is
    have hfitsome := fit_isSome calc_size s.max_size 0 (Or.inr (Nat.zero_le _))
      (s.current_size + calc_size (combine e.value v) - calc_size e.value)
      l2 s.cache_map (by omega)
    obtain ⟨⟨cs', l', m'⟩, hfitr⟩ := Option.isSome_iff_exists.mp hfitsome
    obtain ⟨hcond, hsubl, hsubm, hsum⟩ := fit_some_spec calc_size s.max_size _ _ _ _ hfitr
    have hsum0 : cs' = listSize calc_size l' := by
      have := hsum 0 (by omega)
      simpa using this
    have hcs1 : (if calc_size e.value < calc_size (combine e.value v) then
          s.current_size + (calc_size (combine e.value v) - calc_size e.value)
        else if calc_size e.value > calc_size (combine e.value v) then
          s.current_size - (calc_size e.value - calc_size (combine e.value v))
        else s.current_size) =
        s.current_size + calc_size (combine e.value v) - calc_size e.value := by
      split_ifs <;> omega
    refine ⟨{ s with current_size := cs', eviction_list := l', cache_map := m' },
      ?_, rfl, rfl, rfl, hsum0, ?_, ?_, ?_, hsubm, ?_, ?_, ?_⟩
    · simp only [cache.merge, hstrong, Bool.false_eq_true, if_false, hmap, hfind,
        htouch, if_neg htc, hcs1]
      rw [hfitr]
    · intro h0
      show cs' ≤ s.max_size
      omega
    · intro e' he' hid
      have he'2 := hsubl.subset he'
      have := mem_id_unique hnd2 hfind2 e' he'2 hid
      rw [this, if_neg htc]
    · intro e' he' hne
      exact hmem_l2 e' (hsubl.subset he') hne
    · exact hnd2.sublist (hsubl.map Entry.id)
    · intro e' he'
      exact hlt_l2 e' (hsubl.subset he')
    · refine ⟨l2, htouch,
        s.current_size + calc_size (combine e.value v) - calc_size e.value, ?_, ?_⟩
      · rw [if_neg htc]
        omega
      · rw [if_neg htc]
        exact hfitr

/-- C9: value-level merge on a present key outside strong mode.  The stored
value becomes the combination of the old value with `v` (the value type's
combine capability, applied in place); when the combined size exceeds a
positive `max_size` the stored value is the trimmed one, whose resulting
size is exactly `max_size` (given the trim contract `htrim`); the node is
repositioned by `touch_` per the active strategy; `current_size` is
adjusted by the delta between the old and new size; and the `fit_` loop
runs before the operation returns, so the capacity bound holds on return. -/
theorem c9_merge_combines_trims_and_fits (st : Strategy) (calc_size : V → Nat)
    (combine : V → V → V) (trim : V → Nat → V) (s : CacheState K V)
    (k : K) (id : Nat) (e : Entry K V) (v : V) (d : Bool)
    (hInv : Inv calc_size s) (hstrong : s.strong = false)
    (hmap : mapFind s.cache_map k = some id)
    (hfind : findId s.eviction_list id = some e)
    (htrim : ∀ w n, calc_size (trim w n) = n) :
    ∃ s', cache.merge st calc_size combine trim k v d s = some s' ∧
      (∀ e' ∈ s'.eviction_list, e'.id = id → e'.value =
        (if 0 < s.max_size ∧ s.max_size < calc_size (combine e.value v) then
          trim (combine e.value v) s.max_size
        else combine e.value v)) ∧
      (0 < s.max_size → s.max_size < calc_size (combine e.value v) →
        calc_size (if 0 < s.max_size ∧ s.max_size < calc_size (combine e.value v) then
          trim (combine e.value v) s.max_size
        else combine e.value v) = s.max_size) ∧
      (0 < s.max_size → s'.current_size ≤ s.max_size) ∧
      ∃ l2, touch_ st id (updateValue s.eviction_list id (combine e.value v)) = some l2 ∧
        ∃ cs1, cs1 + calc_size e.value = s.current_size +
            calc_size (if 0 < s.max_size ∧ s.max_size < calc_size (combine e.value v) then
              trim (combine e.value v) s.max_size
            else combine e.value v) ∧
          fit_ calc_size s.max_size cs1
            (if 0 < s.max_size ∧ s.max_size < calc_size (combine e.value v) then
              updateValue l2 id (trim (combine e.value v) s.max_size)
            else l2) s.cache_map =
            some (s'.current_size, s'.eviction_list, s'.cache_map) := by
  obtain ⟨s', hmerge, -, -, -, -, hcap, hval, -, -, -, -, hrun⟩ :=
    merge_present st calc_size combine trim v d hInv hstrong hmap hfind htrim
  refine ⟨s', hmerge, ?_, ?_, hcap, hrun⟩
  · intro e' he' hid
    rw [hval e' he' hid]
  · intro h1 h2
    rw [if_pos ⟨h1, h2⟩, htrim]

/-- Witness for C9: a non-strong LRU cache with `max_size = 3`, identity
size calculator, addition as combine and `trim w n = n`; merging `5` into
the stored `2` combines to `7`, which is trimmed to exactly `3`. -/
theorem c9_witness :
    Inv (fun w => w) (⟨[⟨0, 0, 2, false⟩], [(0, 0)], 2, 3, false, 1⟩ : CacheState Nat Nat) ∧
    (⟨[⟨0, 0, 2, false⟩], [(0, 0)], 2, 3, false, 1⟩ : CacheState Nat Nat).strong = false ∧
    mapFind (⟨[⟨0, 0, 2, false⟩], [(0, 0)], 2, 3, false, 1⟩ : CacheState Nat Nat).cache_map 0 =
      some 0 ∧
    findId (⟨[⟨0, 0, 2, false⟩], [(0, 0)], 2, 3, false, 1⟩ : CacheState Nat Nat).eviction_list 0 =
      some ⟨0, 0, 2, false⟩ ∧
    (∀ w n, (fun w => w : Nat → Nat) ((fun _ n => n : Nat → Nat → Nat) w n) = n) ∧
    ∃ s', cache.merge .lru (fun w => w) (fun a b => a + b) (fun _ n => n) 0 5 false
        (⟨[⟨0, 0, 2, false⟩], [(0, 0)], 2, 3, false, 1⟩ : CacheState Nat Nat) = some s' ∧
      (∀ e' ∈ s'.eviction_list, e'.id = 0 → e'.value =
        (if 0 < (3 : Nat) ∧ (3 : Nat) < (⟨0, 0, 2, false⟩ : Entry Nat Nat).value + 5 then
          (3 : Nat)
        else (⟨0, 0, 2, false⟩ : Entry Nat Nat).value + 5)) ∧
      (0 < (3 : Nat) → (3 : Nat) < (⟨0, 0, 2, false⟩ : Entry Nat Nat).value + 5 →
        (fun w => w : Nat → Nat)
          (if 0 < (3 : Nat) ∧ (3 : Nat) < (⟨0, 0, 2, false⟩ : Entry Nat Nat).value + 5 then
            (3 : Nat)
          else (⟨0, 0, 2, false⟩ : Entry Nat Nat).value + 5) = 3) ∧
      (0 < (3 : Nat) → s'.current_size ≤ 3) ∧
      ∃ l2, touch_ .lru 0 (updateValue [⟨0, 0, 2, false⟩] 0
          ((⟨0, 0, 2, false⟩ : Entry Nat Nat).value + 5)) = some l2 ∧
        ∃ cs1, cs1 + (⟨0, 0, 2, false⟩ : Entry Nat Nat).value = 2 +
            (if 0 < (3 : Nat) ∧ (3 : Nat) < (⟨0, 0, 2, false⟩ : Entry Nat Nat).value + 5 then
              (3 : Nat)
            else (⟨0, 0, 2, false⟩ : Entry Nat Nat).value + 5) ∧
          fit_ (fun w => w) 3 cs1
            (if 0 < (3 : Nat) ∧ (3 : Nat) < (⟨0, 0, 2, false⟩ : Entry Nat Nat).value + 5 then
              updateValue l2 0 3
            else l2) [(0, 0)] =
            some (s'.current_size, s'.eviction_list, s'.cache_map) :=
  ⟨⟨rfl, by decide, by decide⟩, rfl, rfl, rfl, fun _ _ => rfl,
    c9_merge_combines_trims_and_fits .lru (fun w => w) (fun a b => a + b) (fun _ n => n)
      ⟨[⟨0, 0, 2, false⟩], [(0, 0)], 2, 3, false, 1⟩ 0 0 ⟨0, 0, 2, false⟩ 5 false
      ⟨rfl, by decide, by decide⟩ rfl rfl rfl (fun _ _ => rfl)⟩

/-- C10: for a key already present outside strong mode, the `dirty`
argument of `merge` is ignored entirely (both calls return the identical
result); the stored node keeps its key and its dirty flag, only its value
content may change; every other surviving node is one of the previous
nodes unchanged; and the index only loses bindings. -/
theorem c10_merge_ignores_dirty_and_preserves_entry (st : Strategy)
    (calc_size : V → Nat) (combine : V → V → V) (trim : V → Nat → V)
    (s : CacheState K V) (k : K) (id : Nat) (e : Entry K V) (v : V) (d : Bool)
    (hInv : Inv calc_size s) (hstrong : s.strong = false)
    (hmap : mapFind s.cache_map k = some id)
    (hfind : findId s.eviction_list id = some e)
    (htrim : ∀ w n, calc_size (trim w n) = n) :
    cache.merge st calc_size combine trim k v true s =
      cache.merge st calc_size combine trim k v false s ∧
    ∃ s', cache.merge st calc_size combine trim k v d s = some s' ∧
      (∀ e' ∈ s'.eviction_list, e'.id = id → e'.key = e.key ∧ e'.dirty = e.dirty) ∧
      (∀ e' ∈ s'.eviction_list, e'.id ≠ id → e' ∈ s.eviction_list) ∧
      s'.cache_map.Sublist s.cache_map := by
  obtain ⟨s', hmerge, -, -, -, -, -, hval, hother, hsubm, -, -, -⟩ :=
    merge_present st calc_size combine trim v d hInv hstrong hmap hfind htrim
  refine ⟨?_, s', hmerge, ?_, hother, hsubm⟩
  · simp only [cache.merge, hstrong, Bool.false_eq_true, if_false, hmap, hfind]
  · intro e' he' hid
    rw [hval e' he' hid]
    exact ⟨rfl, rfl⟩

theorem fit_cap {calc_size : V → Nat} {max cs : Nat} {l : List (Entry K V)}
    {m : List (K × Nat)} {r} (h : fit_ calc_size max cs l m = some r)
    (h0 : 0 < max) : r.1 ≤ max := by
  obtain ⟨hc, -, -, -⟩ := fit_some_spec calc_size max cs l m r h
  omega

theorem touch_state {st : Strategy} {k : K} {s : CacheState K V} {r}
    (h : cache.touch st k s = some r) :
    r.2.2.current_size = s.current_size ∧ r.2.2.max_size = s.max_size ∧
    r.2.2.strong = s.strong ∧ r.2.2.next_id = s.next_id ∧
    r.2.2.cache_map = s.cache_map := by
  rw [cache.touch] at h
  split at h
  · obtain rfl := Option.some.inj h
    exact ⟨rfl, rfl, rfl, rfl, rfl⟩
  · split at h
    · exact absurd h (by simp)
    · obtain rfl := Option.some.inj h
      exact ⟨rfl, rfl, rfl, rfl, rfl⟩

theorem addCore_cap {st : Strategy} {calc_size : V → Nat} {k : K} {v : V} {d : Bool}
    {s s' : CacheState K V} (h : cache.addCore st calc_size k v d s = some s') :
    0 < s'.max_size → s'.current_size ≤ s'.max_size := by
  rw [cache.addCore] at h
  split at h
  · exact absurd h (by simp)
  · rename_i r cs2 l2 m2 hfit
    obtain rfl := Option.some.inj h
    intro h0
    exact fit_cap hfit h0

theorem add__cap {st : Strategy} {calc_size : V → Nat} {k : K} {v : V} {d : Bool}
    {s s' : CacheState K V}
    (hpre : 0 < s.max_size → s.current_size ≤ s.max_size)
    (h : cache.add_ st calc_size k v d s = some s') :
    0 < s'.max_size → s'.current_size ≤ s'.max_size := by
  rw [cache.add_] at h
  split at h
  · split at h
    · exact absurd h (by simp)
    · obtain rfl := Option.some.inj h
      exact hpre
    · exact addCore_cap h
  · exact addCore_cap h

theorem removeD_state {calc_size : V → Nat} {k : K} {d : Bool}
    {s s1 : CacheState K V} {b : Bool}
    (h : cache.removeD calc_size k d s = some (b, s1)) :
    s1.max_size = s.max_size ∧ s1.strong = s.strong ∧ s1.next_id = s.next_id ∧
    s1.current_size ≤ s.current_size := by
  rw [cache.removeD] at h
  split at h
  · obtain ⟨-, rfl⟩ := Prod.mk.inj (Option.some.inj h)
    exact ⟨rfl, rfl, rfl, Nat.le_refl _⟩
  · split at h
    · exact absurd h (by simp)
    · split at h
      · obtain ⟨-, rfl⟩ := Prod.mk.inj (Option.some.inj h)
        exact ⟨rfl, rfl, rfl, Nat.le_refl _⟩
      · obtain ⟨-, rfl⟩ := Prod.mk.inj (Option.some.inj h)
        exact ⟨rfl, rfl, rfl, Nat.sub_le _ _⟩

theorem add_cap {st : Strategy} {calc_size : V → Nat} {k : K} {v : V} {d : Bool}
    {s s' : CacheState K V}
    (hpre : 0 < s.max_size → s.current_size ≤ s.max_size)
    (h : cache.add st calc_size k v d s = some s') :
    0 < s'.max_size → s'.current_size ≤ s'.max_size := by
  rw [cache.add] at h
  split at h
  · exact add__cap hpre h
  · split at h
    · exact absurd h (by simp)
    · rename_i s1 hrem
      obtain rfl := Option.some.inj h
      obtain ⟨hmax, -, -, hcs⟩ := removeD_state hrem
      intro h0
      rw [hmax] at h0 ⊢
      exact Nat.le_trans hcs (hpre h0)
    · rename_i s1 hrem
      obtain ⟨hmax, -, -, hcs⟩ := removeD_state hrem
      refine add__cap ?_ h
      intro h0
      rw [hmax] at h0 ⊢
      exact Nat.le_trans hcs (hpre h0)

theorem merge_cap {st : Strategy} {calc_size : V → Nat} {combine : V → V → V}
    {trim : V → Nat → V} {k : K} {v : V} {d : Bool} {s s' : CacheState K V}
    (hpre : 0 < s.max_size → s.current_size ≤ s.max_size)
    (h : cache.merge st calc_size combine trim k v d s = some s') :
    0 < s'.max_size → s'.current_size ≤ s'.max_size := by
  rw [cache.merge] at h
  split at h
  · exact add__cap hpre h
  · split at h
    · exact add__cap hpre h
    · split at h
      · exact absurd h (by simp)
      · dsimp only at h
        split at h
        · exact absurd h (by simp)
        · split at h
          · exact absurd h (by simp)
          · rename_i r cs2 l3 m3 hfit
            obtain rfl := Option.some.inj h
            intro h0
            exact fit_cap hfit h0

theorem resize_cap {calc_size : V → Nat} {n : Nat} {s s' : CacheState K V}
    (h : cache.resize calc_size n s = some s') :
    0 < s'.max_size → s'.current_size ≤ s'.max_size := by
  rw [cache.resize] at h
  split at h
  · exact absurd h (by simp)
  · rename_i r cs2 l2 m2 hfit
    obtain rfl := Option.some.inj h
    intro h0
    exact fit_cap hfit h0

theorem remove_cap {calc_size : V → Nat} {k : K} {s s' : CacheState K V}
    (hpre : 0 < s.max_size → s.current_size ≤ s.max_size)
    (h : cache.remove calc_size k s = some s') :
    0 < s'.max_size → s'.current_size ≤ s'.max_size := by
  rw [cache.remove] at h
  split at h
  · exact absurd h (by simp)
  · rename_i r b s1 hrem
    obtain rfl := Option.some.inj h
    obtain ⟨hmax, -, -, hcs⟩ := removeD_state hrem
    intro h0
    rw [hmax] at h0 ⊢
    exact Nat.le_trans hcs (hpre h0)

theorem get_cap {st : Strategy} {k : K} {t : Bool} {r : Option V}
    {s s' : CacheState K V} (hpre : 0 < s.max_size → s.current_size ≤ s.max_size)
    (h : cache.get st k t s = some (r, s')) :
    0 < s'.max_size → s'.current_size ≤ s'.max_size := by
  rw [cache.get] at h
  split at h
  · split at h
    · exact absurd h (by simp)
    · rename cache.touch _ _ _ = _ => htch
      obtain ⟨-, rfl⟩ := Prod.mk.inj (Option.some.inj h)
      obtain ⟨hcs, hmax, -, -, -⟩ := touch_state htch
      intro h0
      rw [hmax] at h0 ⊢
      rw [hcs]
      exact hpre h0
    · split at h
      · exact absurd h (by simp)
      · split at h
        · exact absurd h (by simp)
        · rename cache.touch _ _ _ = _ => htch
          obtain ⟨-, rfl⟩ := Prod.mk.inj (Option.some.inj h)
          obtain ⟨hcs, hmax, -, -, -⟩ := touch_state htch
          intro h0
          rw [hmax] at h0 ⊢
          rw [hcs]
          exact hpre h0
  · split at h
    · obtain ⟨-, rfl⟩ := Prod.mk.inj (Option.some.inj h)
      exact hpre
    · split at h
      · exact absurd h (by simp)
      · obtain ⟨-, rfl⟩ := Prod.mk.inj (Option.some.inj h)
        exact hpre

/-- C4: after every completed public operation (add, merge, resize,
remove, clear, and also get) on a cache with `max_size > 0`, the invariant
`current_size ≤ max_size` holds.  Every operation runs to completion under
the cache's exclusive lock, so admission followed by eviction-to-fit is
atomic from the caller's perspective: the states of `Reach` are exactly
the states observable between operations.  (Operations that hit the
oversized-entry undefined behaviour never return and so produce no
observable state.) -/
theorem c4_capacity_invariant {st : Strategy} {calc_size : V → Nat}
    {combine : V → V → V} {trim : V → Nat → V} {s : CacheState K V}
    (h : Reach st calc_size combine trim s) :
    0 < s.max_size → s.current_size ≤ s.max_size := by
  induction h with
  | init max strong =>
    intro _
    exact Nat.zero_le _
  | addStep k v d hr heq ih => exact add_cap ih heq
  | mergeStep k v d hr heq ih => exact merge_cap ih heq
  | resizeStep n hr heq ih => exact resize_cap heq
  | removeStep k hr heq ih => exact remove_cap ih heq
  | clearStep hr ih =>
    intro _
    exact Nat.zero_le _
  | getStep k t r hr heq ih => exact get_cap ih heq

/-- Witness for C4: the reachable state after `add(0, 7)` on a fresh
capacity-2 LRU cache satisfies the capacity bound. -/
theorem c4_witness :
    Reach .lru (fun _ => (1 : Nat)) (fun a _ => a) (fun w _ => w)
      (⟨[⟨0, 0, 7, false⟩], [(0, 0)], 1, 2, false, 1⟩ : CacheState Nat Nat) ∧
    0 < (⟨[⟨0, 0, 7, false⟩], [(0, 0)], 1, 2, false, 1⟩ : CacheState Nat Nat).max_size ∧
    (⟨[⟨0, 0, 7, false⟩], [(0, 0)], 1, 2, false, 1⟩ : CacheState Nat Nat).current_size ≤
      (⟨[⟨0, 0, 7, false⟩], [(0, 0)], 1, 2, false, 1⟩ : CacheState Nat Nat).max_size := by
  have hadd : cache.add .lru (fun _ => (1 : Nat)) 0 7 false (initCache 2 false) =
      some ⟨[⟨0, 0, 7, false⟩], [(0, 0)], 1, 2, false, 1⟩ := by
    simp [cache.add, cache.removeD, mapFind, cache.add_, cache.addCore, initCache,
      fit_eq, push_, mapInsert, mapErase]
  have hreach : Reach .lru (fun _ => (1 : Nat)) (fun a _ => a) (fun w _ => w)
      (⟨[⟨0, 0, 7, false⟩], [(0, 0)], 1, 2, false, 1⟩ : CacheState Nat Nat) :=
    Reach.addStep 0 7 false (Reach.init 2 false) hadd
  exact ⟨hreach, by decide, c4_capacity_invariant hreach (by decide)⟩

theorem listSize_push (calc_size : V → Nat) (st : Strategy) (e : Entry K V)
    (l : List (Entry K V)) :
    listSize calc_size (push_ st e l) = calc_size e.value + listSize calc_size l := by
  cases st <;> simp [push_, listSize] <;> try omega

theorem mem_push {st : Strategy} {e e' : Entry K V} {l : List (Entry K V)}
    (h : e' ∈ push_ st e l) : e' = e ∨ e' ∈ l := by
  cases st <;> simp [push_] at h <;> tauto

theorem nodup_push {st : Strategy} {e : Entry K V} {l : List (Entry K V)}
    (hnd : (l.map Entry.id).Nodup) (hfresh : ∀ e' ∈ l, e'.id ≠ e.id) :
    ((push_ st e l).map Entry.id).Nodup := by
  have hnotmem : e.id ∉ l.map Entry.id := by
    intro hmem
    obtain ⟨e', he', heq⟩ := List.mem_map.mp hmem
    exact hfresh e' he' heq
  cases st
  · simp [push_, List.nodup_cons, hnotmem, hnd]
  · simp [push_, List.nodup_append, hnotmem, hnd]
    try
      intro a ha hcontra
      exact hnotmem (hcontra ▸ List.mem_map_of_mem Entry.id ha)

theorem touch__perm {st : Strategy} {id : Nat} {l l' : List (Entry K V)}
    (hnd : (l.map Entry.id).Nodup) (h : touch_ st id l = some l') : l'.Perm l := by
  rw [touch_] at h
  split at h
  · exact absurd h (by simp)
  · rename_i e heq
    cases st
    · obtain rfl := Option.some.inj h
      exact (perm_eraseId hnd heq).symm
    · obtain rfl := Option.some.inj h
      exact (List.perm_append_singleton e _).trans (perm_eraseId hnd heq).symm

/-- `cache::touch` preserves the structural invariant (the list is only
permuted). -/
theorem touch_inv {st : Strategy} {k : K} {s : CacheState K V} {r}
    {calc_size : V → Nat} (hInv : Inv calc_size s)
    (h : cache.touch st k s = some r) : Inv calc_size r.2.2 := by
  obtain ⟨hsz, hnd, hlt⟩ := hInv
  rw [cache.touch] at h
  split at h
  · obtain rfl := Option.some.inj h
    exact ⟨hsz, hnd, hlt⟩
  · split at h
    · exact absurd h (by simp)
    · rename_i id hmap l' htch
      obtain rfl := Option.some.inj h
      have hperm := touch__perm hnd htch
      refine ⟨?_, ?_, ?_⟩
      · show s.current_size = listSize calc_size l'
        rw [hsz]
        exact (listSize_perm calc_size hperm).symm
      · exact ((hperm.map Entry.id).nodup_iff).mpr hnd
      · intro e' he'
        exact hlt e' (hperm.subset he')

theorem addCore_inv {st : Strategy} {calc_size : V → Nat} {k : K} {v : V}
    {d : Bool} {s s' : CacheState K V} (hInv : Inv calc_size s)
    (h : cache.addCore st calc_size k v d s = some s') : Inv calc_size s' := by
  obtain ⟨hsz, hnd, hlt⟩ := hInv
  rw [cache.addCore] at h
  split at h
  · exact absurd h (by simp)
  · rename_i r cs2 l2 m2 hfit
    obtain rfl := Option.some.inj h
    obtain ⟨-, hsub, -, hsum⟩ := fit_some_spec _ _ _ _ _ _ hfit
    have hcs2 : cs2 = listSize calc_size l2 + calc_size v := hsum (calc_size v) (by omega)
    have hfresh : ∀ e' ∈ l2, e'.id ≠ s.next_id := by
      intro e' he'
      exact Nat.ne_of_lt (hlt e' (hsub.subset he'))
    refine ⟨?_, ?_, ?_⟩
    · show cs2 = listSize calc_size (push_ st ⟨s.next_id, k, v, d⟩ l2)
      rw [listSize_push]
      show cs2 = calc_size v + listSize calc_size l2
      omega
    · exact nodup_push (hnd.sublist (hsub.map Entry.id)) hfresh
    · intro e' he'
      show e'.id < s.next_id + 1
      rcases mem_push he' with rfl | hmem
      · exact Nat.lt_succ_self _
      · exact Nat.lt_succ_of_lt (hlt e' (hsub.subset hmem))

theorem add__inv {st : Strategy} {calc_size : V → Nat} {k : K} {v : V}
    {d : Bool} {s s' : CacheState K V} (hInv : Inv calc_size s)
    (h : cache.add_ st calc_size k v d s = some s') : Inv calc_size s' := by
  rw [cache.add_] at h
  split at h
  · split at h
    · exact absurd h (by simp)
    · obtain rfl := Option.some.inj h
      exact hInv
    · rename cache.touch _ _ _ = _ => htch
      exact addCore_inv (touch_inv hInv htch) h
  · exact addCore_inv hInv h

theorem removeD_inv {calc_size : V → Nat} {k : K} {d : Bool}
    {s s1 : CacheState K V} {b : Bool} (hInv : Inv calc_size s)
    (h : cache.removeD calc_size k d s = some (b, s1)) : Inv calc_size s1 := by
  obtain ⟨hsz, hnd, hlt⟩ := hInv
  cases hmap : mapFind s.cache_map k with
  | none =>
    rw [cache.removeD, hmap] at h
    obtain ⟨-, rfl⟩ := Prod.mk.inj (Option.some.inj h)
    exact ⟨hsz, hnd, hlt⟩
  | some id =>
    cases hfind : findId s.eviction_list id with
    | none =>
      simp [cache.removeD, hmap, hfind] at h
    | some e =>
      simp only [cache.removeD, hmap, hfind] at h
      split at h
      · obtain ⟨-, rfl⟩ := Prod.mk.inj (Option.some.inj h)
        exact ⟨hsz, hnd, hlt⟩
      · obtain ⟨-, rfl⟩ := Prod.mk.inj (Option.some.inj h)
        have herase := listSize_eraseId calc_size hnd hfind
        refine ⟨?_, ?_, ?_⟩
        · show s.current_size - calc_size e.value =
            listSize calc_size (eraseId s.eviction_list id)
          omega
        · exact hnd.sublist ((List.filter_sublist _).map Entry.id)
        · intro e' he'
          exact hlt e' (mem_eraseId he')

theorem add_inv {st : Strategy} {calc_size : V → Nat} {k : K} {v : V}
    {d : Bool} {s s' : CacheState K V} (hInv : Inv calc_size s)
    (h : cache.add st calc_size k v d s = some s') : Inv calc_size s' := by
  rw [cache.add] at h
  split at h
  · exact add__inv hInv h
  · split at h
    · exact absurd h (by simp)
    · rename_i s1 hrem
      obtain rfl := Option.some.inj h
      exact removeD_inv hInv hrem
    · rename_i s1 hrem
      exact add__inv (removeD_inv hInv hrem) h

theorem merge_inv {st : Strategy} {calc_size : V → Nat} {combine : V → V → V}
    {trim : V → Nat → V} {k : K} {v : V} {d : Bool} {s s' : CacheState K V}
    (hInv : Inv calc_size s) (htrim : ∀ w n, calc_size (trim w n) = n)
    (h : cache.merge st calc_size combine trim k v d s = some s') :
    Inv calc_size s' := by
  by_cases hstrong : s.strong = true
  · rw [cache.merge, if_pos hstrong] at h
    exact add__inv hInv h
  · have hstrong' : s.strong = false := by simpa using hstrong
    cases hmap : mapFind s.cache_map k with
    | none =>
      simp only [cache.merge, hstrong', Bool.false_eq_true, if_false, hmap] at h
      exact add__inv hInv h
    | some id =>
      cases hfind : findId s.eviction_list id with
      | none =>
        simp [cache.merge, hstrong', hmap, hfind] at h
      | some e =>
        obtain ⟨s'', hmerge, -, -, hnext, hszeq, -, -, -, -, hnd', hlt', -⟩ :=
          merge_present st calc_size combine trim v d ⟨hInv.1, hInv.2.1, hInv.2.2⟩
            hstrong' hmap hfind htrim
        rw [hmerge] at h
        obtain rfl := Option.some.inj h
        refine ⟨hszeq, hnd', ?_⟩
        rw [hnext]
        exact hlt'

theorem resize_inv {calc_size : V → Nat} {n : Nat} {s s' : CacheState K V}
    (hInv : Inv calc_size s) (h : cache.resize calc_size n s = some s') :
    Inv calc_size s' := by
  obtain ⟨hsz, hnd, hlt⟩ := hInv
  rw [cache.resize] at h
  split at h
  · exact absurd h (by simp)
  · rename_i r cs2 l2 m2 hfit
    obtain rfl := Option.some.inj h
    obtain ⟨-, hsub, -, hsum⟩ := fit_some_spec _ _ _ _ _ _ hfit
    refine ⟨?_, ?_, ?_⟩
    · show cs2 = listSize calc_size l2
      have := hsum 0 (by omega)
      simpa using this
    · exact hnd.sublist (hsub.map Entry.id)
    · intro e' he'
      exact hlt e' (hsub.subset he')

theorem remove_inv {calc_size : V → Nat} {k : K} {s s' : CacheState K V}
    (hInv : Inv calc_size s) (h : cache.remove calc_size k s = some s') :
    Inv calc_size s' := by
  rw [cache.remove] at h
  split at h
  · exact absurd h (by simp)
  · rename_i r b s1 hrem
    obtain rfl := Option.some.inj h
    exact removeD_inv hInv hrem

theorem clear_inv {calc_size : V → Nat} {s : CacheState K V} :
    Inv calc_size (cache.clear s) :=
  ⟨rfl, List.nodup_nil, by intro e he; exact absurd he (List.not_mem_nil e)⟩

theorem get_inv {st : Strategy} {k : K} {t : Bool} {r : Option V}
    {s s' : CacheState K V} {calc_size : V → Nat} (hInv : Inv calc_size s)
    (h : cache.get st k t s = some (r, s')) : Inv calc_size s' := by
  rw [cache.get] at h
  split at h
  · split at h
    · exact absurd h (by simp)
    · rename cache.touch _ _ _ = _ => htch
      obtain ⟨-, rfl⟩ := Prod.mk.inj (Option.some.inj h)
      exact touch_inv hInv htch
    · split at h
      · exact absurd h (by simp)
      · split at h
        · exact absurd h (by simp)
        · rename cache.touch _ _ _ = _ => htch
          obtain ⟨-, rfl⟩ := Prod.mk.inj (Option.some.inj h)
          exact touch_inv hInv htch
  · split at h
    · obtain ⟨-, rfl⟩ := Prod.mk.inj (Option.some.inj h)
      exact hInv
    · split at h
      · exact absurd h (by simp)
      · obtain ⟨-, rfl⟩ := Prod.mk.inj (Option.some.inj h)
        exact hInv

/-- Every reachable state is structurally well-formed, assuming the trim
capability meets its contract. -/
theorem reach_inv {st : Strategy} {calc_size : V → Nat} {combine : V → V → V}
    {trim : V → Nat → V} {s : CacheState K V}
    (htrim : ∀ w n, calc_size (trim w n) = n)
    (h : Reach st calc_size combine trim s) : Inv calc_size s := by
  induction h with
  | init max strong => exact ⟨rfl, List.nodup_nil, by intro e he; exact absurd he (List.not_mem_nil e)⟩
  | addStep k v d hr heq ih => exact add_inv ih heq
  | mergeStep k v d hr heq ih => exact merge_inv ih htrim heq
  | resizeStep n hr heq ih => exact resize_inv ih heq
  | removeStep k hr heq ih => exact remove_inv ih heq
  | clearStep hr ih => exact clear_inv
  | getStep k t r hr heq ih => exact get_inv ih heq

/-- C6: after every completed public operation, in both strong and
non-strong association modes and for every size calculator,
`current_size` equals the sum of the size calculator over the values of
all live entries (the eviction list — which is in bijection with the
index in every reachable state).  The theorem assumes the trim capability
meets its spec contract (`calc_size (trim w n) = n`, §4.2: "trimmed to fit
exactly max_size units"), which the code relies on when it accounts
`new_size = max_size` after trimming. -/
theorem c6_size_accounting {st : Strategy} {calc_size : V → Nat}
    {combine : V → V → V} {trim : V → Nat → V} {s : CacheState K V}
    (htrim : ∀ w n, calc_size (trim w n) = n)
    (h : Reach st calc_size combine trim s) :
    s.current_size = listSize calc_size s.eviction_list :=
  (reach_inv htrim h).1

/-- Witness for C6: the reachable state after `add(0, 1)` on a fresh
capacity-2 cache with the identity size calculator; `trim w n = n`
satisfies the trim contract. -/
theorem c6_witness :
    (∀ w n, (fun w => w : Nat → Nat) ((fun _ n => n : Nat → Nat → Nat) w n) = n) ∧
    Reach .lru (fun w => w) (fun a b => a + b) (fun _ n => n)
      (⟨[⟨0, 0, 1, false⟩], [(0, 0)], 1, 2, false, 1⟩ : CacheState Nat Nat) ∧
    (⟨[⟨0, 0, 1, false⟩], [(0, 0)], 1, 2, false, 1⟩ : CacheState Nat Nat).current_size =
      listSize (fun w => w)
        (⟨[⟨0, 0, 1, false⟩], [(0, 0)], 1, 2, false, 1⟩ : CacheState Nat Nat).eviction_list := by
  have hadd : cache.add .lru (fun w => w) 0 1 false (initCache 2 false) =
      some ⟨[⟨0, 0, 1, false⟩], [(0, 0)], 1, 2, false, 1⟩ := by
    simp [cache.add, cache.removeD, mapFind, cache.add_, cache.addCore, initCache,
      fit_eq, push_, mapInsert, mapErase]
  have hreach : Reach .lru (fun w => w) (fun a b => a + b) (fun _ n => n)
      (⟨[⟨0, 0, 1, false⟩], [(0, 0)], 1, 2, false, 1⟩ : CacheState Nat Nat) :=
    Reach.addStep 0 1 false (Reach.init 2 false) hadd
  exact ⟨fun _ _ => rfl, hreach, c6_size_accounting (fun _ _ => rfl) hreach⟩

/-- Witness for C10: same cache as the C9 witness; merging with
`dirty = true` and `dirty = false` coincide and the stored node keeps key
`0` and flag `false`. -/
theorem c10_witness :
    Inv (fun w => w) (⟨[⟨0, 0, 2, false⟩], [(0, 0)], 2, 3, false, 1⟩ : CacheState Nat Nat) ∧
    (⟨[⟨0, 0, 2, false⟩], [(0, 0)], 2, 3, false, 1⟩ : CacheState Nat Nat).strong = false ∧
    mapFind (⟨[⟨0, 0, 2, false⟩], [(0, 0)], 2, 3, false, 1⟩ : CacheState Nat Nat).cache_map 0 =
      some 0 ∧
    findId (⟨[⟨0, 0, 2, false⟩], [(0, 0)], 2, 3, false, 1⟩ : CacheState Nat Nat).eviction_list 0 =
      some ⟨0, 0, 2, false⟩ ∧
    (∀ w n, (fun w => w : Nat → Nat) ((fun _ n => n : Nat → Nat → Nat) w n) = n) ∧
    (cache.merge .lru (fun w => w) (fun a b => a + b) (fun _ n => n) 0 5 true
        (⟨[⟨0, 0, 2, false⟩], [(0, 0)], 2, 3, false, 1⟩ : CacheState Nat Nat) =
      cache.merge .lru (fun w => w) (fun a b => a + b) (fun _ n => n) 0 5 false
        ⟨[⟨0, 0, 2, false⟩], [(0, 0)], 2, 3, false, 1⟩ ∧
    ∃ s', cache.merge .lru (fun w => w) (fun a b => a + b) (fun _ n => n) 0 5 false
        (⟨[⟨0, 0, 2, false⟩], [(0, 0)], 2, 3, false, 1⟩ : CacheState Nat Nat) = some s' ∧
      (∀ e' ∈ s'.eviction_list, e'.id = 0 →
        e'.key = (⟨0, 0, 2, false⟩ : Entry Nat Nat).key ∧
        e'.dirty = (⟨0, 0, 2, false⟩ : Entry Nat Nat).dirty) ∧
      (∀ e' ∈ s'.eviction_list, e'.id ≠ 0 →
        e' ∈ (⟨[⟨0, 0, 2, false⟩], [(0, 0)], 2, 3, false, 1⟩ : CacheState Nat Nat).eviction_list) ∧
      s'.cache_map.Sublist [(0, 0)]) :=
  ⟨⟨rfl, by decide, by decide⟩, rfl, rfl, rfl, fun _ _ => rfl,
    c10_merge_ignores_dirty_and_preserves_entry .lru (fun w => w) (fun a b => a + b)
      (fun _ n => n) ⟨[⟨0, 0, 2, false⟩], [(0, 0)], 2, 3, false, 1⟩ 0 0 ⟨0, 0, 2, false⟩ 5 false
      ⟨rfl, by decide, by decide⟩ rfl rfl rfl (fun _ _ => rfl)⟩

theorem getLast?_cons_of_ne_nil (a : Entry Nat Nat) {l : List (Entry Nat Nat)}
    (h : l ≠ []) : (a :: l).getLast? = l.getLast? := by
  cases l with
  | nil => exact absurd rfl h
  | cons b t => exact List.getLast?_cons_cons

theorem eraseId_eq_self {l : List (Entry K V)} {id : Nat}
    (h : ∀ e ∈ l, e.id ≠ id) : eraseId l id = l := by
  rw [eraseId, List.filter_eq_self]
  intro e he
  simpa using h e he

theorem mapFind_descPairs (n k : Nat) :
    mapFind (descPairs n) k = if k < n then some k else none := by
  induction n with
  | zero => simp [descPairs, mapFind]
  | succ n ih =>
    rw [descPairs, mapFind_cons]
    by_cases hk : n = k
    · subst hk
      simp
    · rw [if_neg (by simpa using hk), ih]
      by_cases hlt : k < n
      · rw [if_pos hlt, if_pos (by omega)]
      · rw [if_neg hlt, if_neg (by omega)]

theorem mem_descPairs {n : Nat} {p : Nat × Nat} (h : p ∈ descPairs n) :
    p.1 < n ∧ p.2 = p.1 := by
  induction n with
  | zero => simp [descPairs] at h
  | succ n ih =>
    rw [descPairs] at h
    rcases List.mem_cons.mp h with rfl | h'
    · exact ⟨Nat.lt_succ_self n, rfl⟩
    · obtain ⟨h1, h2⟩ := ih h'
      exact ⟨Nat.lt_succ_of_lt h1, h2⟩

theorem mapErase_descPairs (n : Nat) : mapErase (descPairs n) n = descPairs n := by
  rw [mapErase, List.filter_eq_self]
  intro p hp
  have := (mem_descPairs hp).1
  simp
  omega

theorem findId_descEntriesFrom (m b k : Nat) :
    findId (descEntriesFrom b m) k =
      if b ≤ k ∧ k < b + m then some (fillEntry k) else none := by
  induction m with
  | zero =>
    rw [show findId (descEntriesFrom b 0) k = none from rfl, if_neg (by omega)]
  | succ m ih =>
    rw [descEntriesFrom, findId_cons]
    by_cases hk : b + m = k
    · subst hk
      rw [if_pos (by simp [fillEntry]), if_pos (by omega)]
    · rw [if_neg (by simpa [fillEntry] using hk), ih]
      by_cases hin : b ≤ k ∧ k < b + m
      · rw [if_pos hin, if_pos (by omega)]
      · rw [if_neg hin, if_neg (by omega)]

theorem findId_ascEntriesFrom (m : Nat) : ∀ b k : Nat,
    findId (ascEntriesFrom b m) k =
      if b ≤ k ∧ k < b + m then some (fillEntry k) else none := by
  induction m with
  | zero =>
    intro b k
    rw [show findId (ascEntriesFrom b 0) k = none from rfl, if_neg (by omega)]
  | succ m ih =>
    intro b k
    rw [ascEntriesFrom, findId_cons]
    by_cases hk : b = k
    · subst hk
      rw [if_pos (by simp [fillEntry]), if_pos (by omega)]
    · rw [if_neg (by simpa [fillEntry] using hk), ih]
      by_cases hin : b + 1 ≤ k ∧ k < b + 1 + m
      · rw [if_pos hin, if_pos (by omega)]
      · rw [if_neg hin, if_neg (by omega)]

theorem dropLast_descEntriesFrom (b : Nat) : ∀ m : Nat,
    (descEntriesFrom b (m + 1)).dropLast = descEntriesFrom (b + 1) m := by
  intro m
  induction m with
  | zero => rfl
  | succ m ih =>
    rw [show descEntriesFrom b (m + 2) =
        fillEntry (b + (m + 1)) :: descEntriesFrom b (m + 1) from rfl]
    rw [show descEntriesFrom b (m + 1) =
        fillEntry (b + m) :: descEntriesFrom b m from rfl] at ih ⊢
    rw [List.dropLast_cons₂, ih]
    rw [show descEntriesFrom (b + 1) (m + 1) =
        fillEntry (b + 1 + m) :: descEntriesFrom (b + 1) m from rfl]
    have : b + (m + 1) = b + 1 + m := by omega
    rw [this]

theorem getLast?_descEntriesFrom (b : Nat) : ∀ m : Nat,
    (descEntriesFrom b (m + 1)).getLast? = some (fillEntry b) := by
  intro m
  induction m with
  | zero => rfl
  | succ m ih =>
    rw [show descEntriesFrom b (m + 2) =
        fillEntry (b + (m + 1)) :: descEntriesFrom b (m + 1) from rfl]
    rw [getLast?_cons_of_ne_nil _ (by rw [descEntriesFrom]; simp)]
    exact ih

theorem mem_descEntriesFrom {b m : Nat} {e : Entry Nat Nat}
    (h : e ∈ descEntriesFrom b m) : b ≤ e.id := by
  induction m with
  | zero => simp [descEntriesFrom] at h
  | succ m ih =>
    rw [descEntriesFrom] at h
    rcases List.mem_cons.mp h with rfl | h'
    · simp [fillEntry]
    · exact ih h'

theorem mem_ascEntriesFrom {m : Nat} : ∀ {b : Nat} {e : Entry Nat Nat},
    e ∈ ascEntriesFrom b m → b ≤ e.id := by
  induction m with
  | zero =>
    intro b e h
    simp [ascEntriesFrom] at h
  | succ m ih =>
    intro b e h
    rw [ascEntriesFrom] at h
    rcases List.mem_cons.mp h with rfl | h'
    · simp [fillEntry]
    · exact Nat.le_of_succ_le (ih h')

theorem eraseId_descEntriesFrom_zero (m : Nat) :
    eraseId (descEntriesFrom 0 (m + 1)) 0 = descEntriesFrom 1 m := by
  induction m with
  | zero => rfl
  | succ m ih =>
    rw [show descEntriesFrom 0 (m + 2) =
        fillEntry (0 + (m + 1)) :: descEntriesFrom 0 (m + 1) from rfl, Nat.zero_add]
    rw [eraseId_cons, if_neg (by simp [fillEntry]), ih]
    rw [show descEntriesFrom 1 (m + 1) =
        fillEntry (1 + m) :: descEntriesFrom 1 m from rfl]
    have : m + 1 = 1 + m := by omega
    rw [this]

theorem ascEntriesFrom_concat (m : Nat) : ∀ b : Nat,
    ascEntriesFrom b (m + 1) = ascEntriesFrom b m ++ [fillEntry (b + m)] := by
  induction m with
  | zero =>
    intro b
    simp [ascEntriesFrom]
  | succ m ih =>
    intro b
    rw [show ascEntriesFrom b (m + 2) =
        fillEntry b :: ascEntriesFrom (b + 1) (m + 1) from rfl]
    rw [ih (b + 1)]
    rw [show ascEntriesFrom b (m + 1) = fillEntry b :: ascEntriesFrom (b + 1) m from rfl]
    have : b + 1 + m = b + (m + 1) := by omega
    rw [this]
    rfl

theorem eraseId_ascEntriesFrom_zero (m : Nat) :
    eraseId (ascEntriesFrom 0 (m + 1)) 0 = ascEntriesFrom 1 m := by
  rw [show ascEntriesFrom 0 (m + 1) = fillEntry 0 :: ascEntriesFrom 1 m from rfl]
  rw [eraseId_cons, if_pos (by simp [fillEntry])]
  apply eraseId_eq_self
  intro e he
  have := mem_ascEntriesFrom he
  omega

theorem fillEntry_id (i : Nat) : (fillEntry i).id = i := rfl

theorem fillEntry_key (i : Nat) : (fillEntry i).key = i := rfl

theorem fillEntry_value (i : Nat) : (fillEntry i).value = i := rfl

/-- Filling an empty capacity-`N` LRU cache with keys `0, …, n-1 ≤ N` (unit
sizes): no eviction happens and the eviction list holds the keys newest
first. -/
theorem addSeq_lru (N : Nat) : ∀ n, n ≤ N →
    addSeq .lru n (initCache N false) =
      some ⟨descEntriesFrom 0 n, descPairs n, n, N, false, n⟩ := by
  intro n
  induction n with
  | zero => intro _; rfl
  | succ n ih =>
    intro hle
    rw [addSeq, ih (by omega)]
    have hmf : mapFind (descPairs n) n = none := by
      rw [mapFind_descPairs, if_neg (by omega)]
    have hfit : fit_ (fun _ => (1 : Nat)) N (n + 1) (descEntriesFrom 0 n) (descPairs n) =
        some (n + 1, descEntriesFrom 0 n, descPairs n) := by
      rw [fit_eq, if_neg (by omega)]
    simp [cache.add, cache.removeD, cache.add_, cache.addCore, hmf, hfit, push_,
      mapInsert, mapErase_descPairs, descEntriesFrom, descPairs, fillEntry]

/-- Filling an empty capacity-`N` MRU cache with keys `0, …, n-1 ≤ N` (unit
sizes): no eviction happens and the eviction list holds the keys oldest
first. -/
theorem addSeq_mru (N : Nat) : ∀ n, n ≤ N →
    addSeq .mru n (initCache N false) =
      some ⟨ascEntriesFrom 0 n, descPairs n, n, N, false, n⟩ := by
  intro n
  induction n with
  | zero => intro _; rfl
  | succ n ih =>
    intro hle
    rw [addSeq, ih (by omega)]
    have hmf : mapFind (descPairs n) n = none := by
      rw [mapFind_descPairs, if_neg (by omega)]
    have hfit : fit_ (fun _ => (1 : Nat)) N (n + 1) (ascEntriesFrom 0 n) (descPairs n) =
        some (n + 1, ascEntriesFrom 0 n, descPairs n) := by
      rw [fit_eq, if_neg (by omega)]
    have hconcat : ascEntriesFrom 0 n ++ [(⟨n, n, n, false⟩ : Entry Nat Nat)] =
        ascEntriesFrom 0 (n + 1) := by
      rw [ascEntriesFrom_concat n 0, Nat.zero_add]
      rfl
    simp [cache.add, cache.removeD, cache.add_, cache.addCore, hmf, hfit, push_,
      mapInsert, mapErase_descPairs, hconcat, descPairs]

/-- C7: the LRU property.  For any capacity `N ≥ 2` with unit sizes: insert
keys `0, …, N-1` (no eviction yet), `get(0)` with touch, then insert key
`N`.  Key `0` remains retrievable (`get` returns its value `0`) and key `1`
— the least recently touched — has been evicted (`get` misses). -/
theorem c7_lru_property (N : Nat) (hN : 2 ≤ N) :
    ∃ s1 s2 s3 s4,
      addSeq .lru N (initCache N false) = some s1 ∧
      cache.get .lru 0 true s1 = some (some 0, s2) ∧
      cache.add .lru (fun _ => 1) N N false s2 = some s3 ∧
      cache.get .lru 0 true s3 = some (some 0, s4) ∧
      cache.get .lru 1 true s3 = some (none, s3) := by
  obtain ⟨m, rfl⟩ : ∃ m, N = m + 2 := ⟨N - 2, by omega⟩
  have h1 := addSeq_lru (m + 2) (m + 2) (Nat.le_refl _)
  have hmf1 : mapFind (descPairs (m + 2)) 0 = some 0 := by
    rw [mapFind_descPairs, if_pos (by omega)]
  have hfind1 : findId (descEntriesFrom 0 (m + 2)) 0 = some (fillEntry 0) := by
    rw [findId_descEntriesFrom, if_pos (by omega)]
  have htch1 : touch_ .lru 0 (descEntriesFrom 0 (m + 2)) =
      some (fillEntry 0 :: descEntriesFrom 1 (m + 1)) := by
    rw [touch_, hfind1, eraseId_descEntriesFrom_zero (m + 1)]
  have hget1 : cache.get .lru 0 true
      (⟨descEntriesFrom 0 (m + 2), descPairs (m + 2), m + 2, m + 2, false, m + 2⟩ :
        CacheState Nat Nat) =
      some (some 0, ⟨fillEntry 0 :: descEntriesFrom 1 (m + 1), descPairs (m + 2),
        m + 2, m + 2, false, m + 2⟩) := by
    simp [cache.get, cache.touch, hmf1, htch1, findId_cons, fillEntry_id, fillEntry_value]
  have hmf2 : mapFind (descPairs (m + 2)) (m + 2) = none := by
    rw [mapFind_descPairs, if_neg (by omega)]
  have hgl : (fillEntry 0 :: descEntriesFrom 1 (m + 1)).getLast? = some (fillEntry 1) := by
    rw [getLast?_cons_of_ne_nil _ (by rw [descEntriesFrom]; simp)]
    exact getLast?_descEntriesFrom 1 m
  have hdl : (fillEntry 0 :: descEntriesFrom 1 (m + 1)).dropLast =
      fillEntry 0 :: descEntriesFrom 2 m := by
    rw [show descEntriesFrom 1 (m + 1) = fillEntry (1 + m) :: descEntriesFrom 1 m from rfl]
    rw [List.dropLast_cons₂]
    rw [← show descEntriesFrom 1 (m + 1) = fillEntry (1 + m) :: descEntriesFrom 1 m from rfl]
    rw [show descEntriesFrom 2 m = (descEntriesFrom 1 (m + 1)).dropLast from
      (dropLast_descEntriesFrom 1 m).symm]
  have hfit2 : fit_ (fun _ => (1 : Nat)) (m + 2) (m + 2 + 1)
      (fillEntry 0 :: descEntriesFrom 1 (m + 1)) (descPairs (m + 2)) =
      some (m + 2, fillEntry 0 :: descEntriesFrom 2 m,
        mapErase (descPairs (m + 2)) 1) := by
    rw [fit_eq, if_pos (by omega), hgl]
    show fit_ (fun _ => (1 : Nat)) (m + 2) (m + 2 + 1 - 1)
      (fillEntry 0 :: descEntriesFrom 1 (m + 1)).dropLast
      (mapErase (descPairs (m + 2)) (fillEntry 1).key) = _
    rw [hdl, fillEntry_key, fit_eq, if_neg (by omega)]
    simp
  have hadd : cache.add .lru (fun _ => 1) (m + 2) (m + 2) false
      (⟨fillEntry 0 :: descEntriesFrom 1 (m + 1), descPairs (m + 2),
        m + 2, m + 2, false, m + 2⟩ : CacheState Nat Nat) =
      some ⟨⟨m + 2, m + 2, m + 2, false⟩ :: fillEntry 0 :: descEntriesFrom 2 m,
        (m + 2, m + 2) :: mapErase (mapErase (descPairs (m + 2)) 1) (m + 2),
        m + 2, m + 2, false, m + 3⟩ := by
    simp [cache.add, cache.removeD, cache.add_, cache.addCore, hmf2, hfit2, push_,
      mapInsert]
  have hmf3 : mapFind ((m + 2, m + 2) ::
      mapErase (mapErase (descPairs (m + 2)) 1) (m + 2)) 0 = some 0 := by
    rw [mapFind_cons, if_neg (by omega), mapFind_mapErase_ne _ (by omega),
      mapFind_mapErase_ne _ (by omega), mapFind_descPairs, if_pos (by omega)]
  have hfind3 : findId (⟨m + 2, m + 2, m + 2, false⟩ ::
      fillEntry 0 :: descEntriesFrom 2 m) 0 = some (fillEntry 0) := by
    rw [findId_cons, if_neg (by simp), findId_cons, if_pos (by simp [fillEntry])]
  obtain ⟨l'', htl3, hf3⟩ := touch_findId .lru hfind3
  have hget3 : cache.get .lru 0 true
      (⟨⟨m + 2, m + 2, m + 2, false⟩ :: fillEntry 0 :: descEntriesFrom 2 m,
        (m + 2, m + 2) :: mapErase (mapErase (descPairs (m + 2)) 1) (m + 2),
        m + 2, m + 2, false, m + 3⟩ : CacheState Nat Nat) =
      some (some 0, ⟨l'', (m + 2, m + 2) ::
        mapErase (mapErase (descPairs (m + 2)) 1) (m + 2),
        m + 2, m + 2, false, m + 3⟩) := by
    simp [cache.get, cache.touch, hmf3, htl3, hf3, fillEntry_value]
  have hmf4 : mapFind ((m + 2, m + 2) ::
      mapErase (mapErase (descPairs (m + 2)) 1) (m + 2)) 1 = none := by
    rw [mapFind_cons, if_neg (by omega), mapFind_mapErase_ne _ (by omega),
      mapFind_mapErase_self]
  have hget4 : cache.get .lru 1 true
      (⟨⟨m + 2, m + 2, m + 2, false⟩ :: fillEntry 0 :: descEntriesFrom 2 m,
        (m + 2, m + 2) :: mapErase (mapErase (descPairs (m + 2)) 1) (m + 2),
        m + 2, m + 2, false, m + 3⟩ : CacheState Nat Nat) =
      some (none, ⟨⟨m + 2, m + 2, m + 2, false⟩ :: fillEntry 0 :: descEntriesFrom 2 m,
        (m + 2, m + 2) :: mapErase (mapErase (descPairs (m + 2)) 1) (m + 2),
        m + 2, m + 2, false, m + 3⟩) := by
    simp [cache.get, cache.touch, hmf4]
  exact ⟨_, _, _, _, h1, hget1, hadd, hget3, hget4⟩

/-- C8: the MRU property.  Same setup as C7 under MRU: insert keys
`0, …, N-1` at capacity `N ≥ 2` (unit sizes, no eviction yet), `get(0)`
with touch — making key `0` the next eviction candidate — then insert key
`N`: key `0` has been evicted (`get` misses) and key `1` has not (`get`
returns its value `1`). -/
theorem c8_mru_property (N : Nat) (hN : 2 ≤ N) :
    ∃ s1 s2 s3 s4,
      addSeq .mru N (initCache N false) = some s1 ∧
      cache.get .mru 0 true s1 = some (some 0, s2) ∧
      cache.add .mru (fun _ => 1) N N false s2 = some s3 ∧
      cache.get .mru 0 true s3 = some (none, s3) ∧
      cache.get .mru 1 true s3 = some (some 1, s4) := by
  obtain ⟨m, rfl⟩ : ∃ m, N = m + 2 := ⟨N - 2, by omega⟩
  have h1 := addSeq_mru (m + 2) (m + 2) (Nat.le_refl _)
  have hmf1 : mapFind (descPairs (m + 2)) 0 = some 0 := by
    rw [mapFind_descPairs, if_pos (by omega)]
  have hfind1 : findId (ascEntriesFrom 0 (m + 2)) 0 = some (fillEntry 0) := by
    rw [findId_ascEntriesFrom, if_pos (by omega)]
  have htch1 : touch_ .mru 0 (ascEntriesFrom 0 (m + 2)) =
      some (ascEntriesFrom 1 (m + 1) ++ [fillEntry 0]) := by
    rw [touch_, hfind1, eraseId_ascEntriesFrom_zero (m + 1)]
  have haux1 : findId (ascEntriesFrom 1 (m + 1) ++ [fillEntry 0]) 0 =
      some (fillEntry 0) := by
    rw [findId_append, findId_ascEntriesFrom, if_neg (by omega)]
    simp [findId, fillEntry]
  have hget1 : cache.get .mru 0 true
      (⟨ascEntriesFrom 0 (m + 2), descPairs (m + 2), m + 2, m + 2, false, m + 2⟩ :
        CacheState Nat Nat) =
      some (some 0, ⟨ascEntriesFrom 1 (m + 1) ++ [fillEntry 0], descPairs (m + 2),
        m + 2, m + 2, false, m + 2⟩) := by
    simp [cache.get, cache.touch, hmf1, htch1, haux1, fillEntry_value]
  have hmf2 : mapFind (descPairs (m + 2)) (m + 2) = none := by
    rw [mapFind_descPairs, if_neg (by omega)]
  have hfit2 : fit_ (fun _ => (1 : Nat)) (m + 2) (m + 2 + 1)
      (ascEntriesFrom 1 (m + 1) ++ [fillEntry 0]) (descPairs (m + 2)) =
      some (m + 2, ascEntriesFrom 1 (m + 1), mapErase (descPairs (m + 2)) 0) := by
    rw [fit_eq, if_pos (by omega), List.getLast?_concat]
    show fit_ (fun _ => (1 : Nat)) (m + 2) (m + 2 + 1 - 1)
      (ascEntriesFrom 1 (m + 1) ++ [fillEntry 0]).dropLast
      (mapErase (descPairs (m + 2)) (fillEntry 0).key) = _
    rw [List.dropLast_concat, fillEntry_key, fit_eq, if_neg (by omega)]
    simp
  have hadd : cache.add .mru (fun _ => 1) (m + 2) (m + 2) false
      (⟨ascEntriesFrom 1 (m + 1) ++ [fillEntry 0], descPairs (m + 2),
        m + 2, m + 2, false, m + 2⟩ : CacheState Nat Nat) =
      some ⟨ascEntriesFrom 1 (m + 1) ++ [⟨m + 2, m + 2, m + 2, false⟩],
        (m + 2, m + 2) :: mapErase (mapErase (descPairs (m + 2)) 0) (m + 2),
        m + 2, m + 2, false, m + 3⟩ := by
    simp [cache.add, cache.removeD, cache.add_, cache.addCore, hmf2, hfit2, push_,
      mapInsert]
  have hmf3 : mapFind ((m + 2, m + 2) ::
      mapErase (mapErase (descPairs (m + 2)) 0) (m + 2)) 0 = none := by
    rw [mapFind_cons, if_neg (by omega), mapFind_mapErase_ne _ (by omega),
      mapFind_mapErase_self]
  have hget3 : cache.get .mru 0 true
      (⟨ascEntriesFrom 1 (m + 1) ++ [⟨m + 2, m + 2, m + 2, false⟩],
        (m + 2, m + 2) :: mapErase (mapErase (descPairs (m + 2)) 0) (m + 2),
        m + 2, m + 2, false, m + 3⟩ : CacheState Nat Nat) =
      some (none, ⟨ascEntriesFrom 1 (m + 1) ++ [⟨m + 2, m + 2, m + 2, false⟩],
        (m + 2, m + 2) :: mapErase (mapErase (descPairs (m + 2)) 0) (m + 2),
        m + 2, m + 2, false, m + 3⟩) := by
    simp [cache.get, cache.touch, hmf3]
  have hmf4 : mapFind ((m + 2, m + 2) ::
      mapErase (mapErase (descPairs (m + 2)) 0) (m + 2)) 1 = some 1 := by
    rw [mapFind_cons, if_neg (by omega), mapFind_mapErase_ne _ (by omega),
      mapFind_mapErase_ne _ (by omega), mapFind_descPairs, if_pos (by omega)]
  have hfind4 : findId (ascEntriesFrom 1 (m + 1) ++ [⟨m + 2, m + 2, m + 2, false⟩]) 1 =
      some (fillEntry 1) := by
    rw [findId_append, findId_ascEntriesFrom, if_pos (by omega)]
    rfl
  obtain ⟨l'', htl4, hf4⟩ := touch_findId .mru hfind4
  have hget4 : cache.get .mru 1 true
      (⟨ascEntriesFrom 1 (m + 1) ++ [⟨m + 2, m + 2, m + 2, false⟩],
        (m + 2, m + 2) :: mapErase (mapErase (descPairs (m + 2)) 0) (m + 2),
        m + 2, m + 2, false, m + 3⟩ : CacheState Nat Nat) =
      some (some 1, ⟨l'', (m + 2, m + 2) ::
        mapErase (mapErase (descPairs (m + 2)) 0) (m + 2),
        m + 2, m + 2, false, m + 3⟩) := by
    simp [cache.get, cache.touch, hmf4, htl4, hf4, fillEntry_value]
  exact ⟨_, _, _, _, h1, hget1, hadd, hget3, hget4⟩

/-- Witness for C7 at `N = 3`. -/
theorem c7_witness :
    2 ≤ 3 ∧ ∃ s1 s2 s3 s4,
      addSeq .lru 3 (initCache 3 false) = some s1 ∧
      cache.get .lru 0 true s1 = some (some 0, s2) ∧
      cache.add .lru (fun _ => 1) 3 3 false s2 = some s3 ∧
      cache.get .lru 0 true s3 = some (some 0, s4) ∧
      cache.get .lru 1 true s3 = some (none, s3) :=
  ⟨by decide, c7_lru_property 3 (by decide)⟩

/-- Witness for C8 at `N = 3`. -/
theorem c8_witness :
    2 ≤ 3 ∧ ∃ s1 s2 s3 s4,
      addSeq .mru 3 (initCache 3 false) = some s1 ∧
      cache.get .mru 0 true s1 = some (some 0, s2) ∧
      cache.add .mru (fun _ => 1) 3 3 false s2 = some s3 ∧
      cache.get .mru 0 true s3 = some (none, s3) ∧
      cache.get .mru 1 true s3 = some (some 1, s4) :=
  ⟨by decide, c8_mru_property 3 (by decide)⟩

end CppCache
